import Mathlib

/-!
Verification of the supercop benchmark-table generator (`src/tex/supercop.ts`).

The development shallowly embeds the script's reduction pipeline:
  * the log-line pattern `DB_REG_OK` (a JavaScript regular expression) as an
    executable backtracking matcher over `List Char` that reproduces
    `RegExp.exec` semantics (leftmost match, greedy quantifiers trying longest
    first, alternation trying alternatives left to right);
  * the per-host `data` fold (objsize filter, regex parse, field projection,
    lodash `groupBy` / `minBy` / `set`) building the aggregate matrix;
  * the renderer `genBarTable` with its static configuration tables passed
    explicitly (the script closes over them as module-level constants);
    JavaScript numbers are idealised as real numbers extended with the
    IEEE special values NaN and Infinity that the script can actually produce.
-/

set_option maxRecDepth 10000

namespace Supercop

/-! ### Character classes of `DB_REG_OK` -/

/-- JavaScript `\w`: ASCII letters, digits and underscore. -/
def wordChar (c : Char) : Bool := c.isAlphanum || c = '_'

/-- JavaScript `\d`: ASCII digits. -/
def digitChar (c : Char) : Bool := c.isDigit

/-- Class `[\w\/]` used for the `timecop` and `checksum` groups. -/
def tcChar (c : Char) : Bool := wordChar c || c = '/'

/-- Class `[-\w\/]` used for the `impl` group. -/
def implChar (c : Char) : Bool := c = '-' || wordChar c || c = '/'

/-- Class `[/\w]` used for the `cc` group. -/
def ccChar (c : Char) : Bool := c = '/' || wordChar c

/-- Class `[-=\w\/]` used for the `cflags` group. -/
def cflagsChar (c : Char) : Bool := c = '-' || c = '=' || wordChar c || c = '/'

/-! ### A tiny backtracking regex engine

A parser returns every way to match a pattern element against a prefix of the
input, in the order a JavaScript regex engine would try them; the head of the
final list is therefore the match `RegExp.exec` reports. -/

/-- All ways to match one pattern element, best (tried first) first. -/
def Prs (α : Type) : Type := List Char → List (α × List Char)

/-- Sequencing of pattern elements (backtracking over all splits). -/
def pseq {α β : Type} (p : Prs α) (q : α → Prs β) : Prs β :=
  fun s => (p s).flatMap (fun ar => q ar.1 ar.2)

/-- The empty pattern. -/
def ppure {α : Type} (a : α) : Prs α := fun s => [(a, s)]

/-- Greedy `C+` for a character class `C`: candidate matches are the nonempty
prefixes of the maximal run of class characters, longest first. -/
def plus1 (p : Char → Bool) : Prs (List Char) := fun s =>
  let r := s.takeWhile p
  let rest := s.dropWhile p
  (List.range r.length).map (fun k => (r.take (r.length - k), r.drop (r.length - k) ++ rest))

/-- A literal character sequence. -/
def plit (t : List Char) : Prs Unit := fun s =>
  if t.isPrefixOf s then [((), s.drop t.length)] else []

/-- Greedy `(...)?`: the engine first tries to match the group, then skips it. -/
def popt {α : Type} (p : Prs α) : Prs (Option α) := fun s =>
  ((p s).map (fun ar => (some ar.1, ar.2))) ++ [(none, s)]

/-- The alternation `(ok|unknown)`, alternatives tried left to right; returns
the status token that matched. -/
def pstatus : Prs (List Char) := fun s =>
  ((plit ("ok".toList) s).map (fun ur => ("ok".toList, ur.2))) ++
  ((plit ("unknown".toList) s).map (fun ur => ("unknown".toList, ur.2)))

/-- The optional annotation group `(\(\w+placeasm:\w+\))?` of `DB_REG_OK`;
returns the full text the group matched. -/
def pannot : Prs (List Char) :=
  pseq (plit ['(']) fun _ =>
  pseq (plus1 wordChar) fun w1 =>
  pseq (plit ("placeasm:".toList)) fun _ =>
  pseq (plus1 wordChar) fun w2 =>
  pseq (plit [')']) fun _ =>
  ppure ('(' :: (w1 ++ ("placeasm:".toList ++ (w2 ++ [')']))))

/-- The capture groups of `DB_REG_OK`, as raw character lists.  `status` is the
text matched by the unnamed `(ok|unknown)` group and `annot` the text matched
by the unnamed optional group (empty when the group was skipped); the script's
`groups` object only exposes the named groups, but recording the unnamed ones
lets the theorems describe the full decomposition of a matching line. -/
structure GroupsL where
  scv : List Char
  host : List Char
  abi : List Char
  date : List Char
  primitive : List Char
  timecop : List Char
  annot : List Char
  checksum : List Char
  status : List Char
  cycles : List Char
  chksmcycles : List Char
  cyclespersecond : List Char
  impl : List Char
  cc : List Char
  cflags : List Char
deriving DecidableEq, Repr

/-- The body of `DB_REG_OK`, matched at a fixed start position:
`(?<supercopversion>\d+) (?<host>\w+) (?<abi>\w+) (?<date>\d+) (?<primitive>\w+)
 (?<timecop>[\w\/]+) try(\(\w+placeasm:\w+\))? (?<checksum>[\w\/]+) (ok|unknown)
 (?<cycles>\d+) (?<chksmcycles>\d+) (?<cyclespersecond>\d+) (?<impl>[-\w\/]+)
 (?<cc>[/\w]+)_(?<cflags>[-=\w\/]+)`. -/
def matchAt : Prs GroupsL :=
  pseq (plus1 digitChar) fun scv =>
  pseq (plit [' ']) fun _ =>
  pseq (plus1 wordChar) fun host =>
  pseq (plit [' ']) fun _ =>
  pseq (plus1 wordChar) fun abi =>
  pseq (plit [' ']) fun _ =>
  pseq (plus1 digitChar) fun date =>
  pseq (plit [' ']) fun _ =>
  pseq (plus1 wordChar) fun primitive =>
  pseq (plit [' ']) fun _ =>
  pseq (plus1 tcChar) fun timecop =>
  pseq (plit (" try".toList)) fun _ =>
  pseq (popt pannot) fun annot =>
  pseq (plit [' ']) fun _ =>
  pseq (plus1 tcChar) fun checksum =>
  pseq (plit [' ']) fun _ =>
  pseq pstatus fun status =>
  pseq (plit [' ']) fun _ =>
  pseq (plus1 digitChar) fun cycles =>
  pseq (plit [' ']) fun _ =>
  pseq (plus1 digitChar) fun chksmcycles =>
  pseq (plit [' ']) fun _ =>
  pseq (plus1 digitChar) fun cyclespersecond =>
  pseq (plit [' ']) fun _ =>
  pseq (plus1 implChar) fun impl =>
  pseq (plit [' ']) fun _ =>
  pseq (plus1 ccChar) fun cc =>
  pseq (plit ['_']) fun _ =>
  pseq (plus1 cflagsChar) fun cflags =>
  ppure ⟨scv, host, abi, date, primitive, timecop, annot.getD [], checksum,
    status, cycles, chksmcycles, cyclespersecond, impl, cc, cflags⟩

/-- `RegExp.exec` without anchors: try each start position left to right and
report the first (greedy-preferred) match found. -/
def execFrom : List Char → Option GroupsL
  | [] => ((matchAt []).map Prod.fst).head?
  | c :: t =>
    match (matchAt (c :: t)).head? with
    | some gr => some gr.1
    | none => execFrom t

/-- The named capture groups of `DB_REG_OK` as strings (`status`/`annot` are
the unnamed groups, kept for the decomposition theorems). -/
structure Groups where
  scv : String
  host : String
  abi : String
  date : String
  primitive : String
  timecop : String
  annot : String
  checksum : String
  status : String
  cycles : String
  chksmcycles : String
  cyclespersecond : String
  impl : String
  cc : String
  cflags : String
deriving DecidableEq, Repr

/-- Packaging of the raw match into strings. -/
def packG (g : GroupsL) : Groups :=
  ⟨g.scv.asString, g.host.asString, g.abi.asString, g.date.asString,
   g.primitive.asString, g.timecop.asString, g.annot.asString,
   g.checksum.asString, g.status.asString, g.cycles.asString,
   g.chksmcycles.asString, g.cyclespersecond.asString, g.impl.asString,
   g.cc.asString, g.cflags.asString⟩

/-- `DB_REG_OK.exec(line)?.groups` of the script. -/
def execS (line : String) : Option Groups := (execFrom line.toList).map packG

/-- Executable substring test (JavaScript `String.prototype.includes`). -/
def hasInfix (pat : List Char) : List Char → Bool
  | [] => pat.isEmpty
  | c :: t => pat.isPrefixOf (c :: t) || hasInfix pat t

/-- `line.includes("objsize")`. -/
def containsObjsize (line : String) : Bool :=
  hasInfix ("objsize".toList) line.toList

/-- JavaScript `Number(...)` applied to the all-digit `cycles` capture,
idealised as the exact decimal value (the script never benchmarks counts
beyond integer range). -/
def decNat (l : List Char) : ℕ := l.foldl (fun a c => 10 * a + (c.toNat - 48)) 0

/-- One parsed benchmark run, the three fields the script retains
(`{ impl, cycles, machine: g.host }`). -/
structure Obs where
  impl : String
  cycles : ℕ
  machine : String
deriving DecidableEq, Repr

/-- The field projection `g => ({impl: g.impl, cycles: Number(g.cycles), machine: g.host})`.
Note the `machine` field is the `host` capture parsed from the line itself. -/
def mkObs (g : Groups) : Obs := ⟨g.impl, decNat g.cycles.toList, g.host⟩

/-- The whole per-line treatment of the `data` pipeline: drop lines containing
`"objsize"`, run `DB_REG_OK.exec`, keep defined groups, project the fields. -/
def parseLine (line : String) : Option Obs :=
  if containsObjsize line then none else (execS line).map mkObs

/-- JavaScript `content.split("\n")` on raw characters: every newline
separates two (possibly empty) fields. -/
def splitNl : List Char → List (List Char)
  | [] => [[]]
  | c :: t =>
    if c = '\n' then [] :: splitNl t
    else
      match splitNl t with
      | [] => [[c]]
      | h :: r => (c :: h) :: r

/-- `content.split("\n")` of the script. -/
def linesOf (content : String) : List String := (splitNl content.toList).map List.asString

/-- Observations extracted from one `data` file's text: split on newlines,
filter out `objsize` lines, parse, drop non-matches, project
(`.split("\n").filter(...).map(exec).filter(...).map(...)`). -/
def fileObs (content : String) : List Obs :=
  (((linesOf content).filter (fun l => !containsObjsize l)).filterMap execS).map mkObs

/-- The stepwise file pipeline is lines piped through `parseLine`. -/
theorem fileObs_eq_filterMap (content : String) :
    fileObs content = (linesOf content).filterMap parseLine := by
  unfold fileObs parseLine
  induction linesOf content with
  | nil => rfl
  | cons l t ih =>
    by_cases h : containsObjsize l = true
    · simp [h, List.filter_cons, List.filterMap_cons] at ih ⊢
      exact ih
    · simp only [Bool.not_eq_true] at h
      simp [h, List.filter_cons, List.filterMap_cons] at ih ⊢
      cases execS l <;> simp [ih]

/-! ### The aggregate matrix (`data` of the script)

The script accumulates into a plain object via lodash
`set(acc, impl + "." + machine, cycles)`; both key fragments are free of `.`
(the regex classes contain no dot), so `set` always writes the nested leaf
`acc[impl][machine]`.  JavaScript objects are modelled as association lists in
insertion order. -/

/-- The aggregate matrix: implementation → (machine → best cycles). -/
abbrev Matrix : Type := List (String × List (String × ℕ))

/-- First-match association lookup (JavaScript property access). -/
def lookupA {α : Type} (l : List (String × α)) (k : String) : Option α :=
  (l.find? (fun e => e.1 = k)).map (fun e => e.2)

/-- Update-or-append on the inner machine map. -/
def msetInner (l : List (String × ℕ)) (m : String) (v : ℕ) : List (String × ℕ) :=
  match l with
  | [] => [(m, v)]
  | (m1, v1) :: t => if m1 = m then (m, v) :: t else (m1, v1) :: msetInner t m v

/-- Lodash `set(acc, impl + "." + machine, cycles)`. -/
def mset (acc : Matrix) (i m : String) (v : ℕ) : Matrix :=
  match acc with
  | [] => [(i, [(m, v)])]
  | (i1, inner) :: t => if i1 = i then (i, msetInner inner m v) :: t else (i1, inner) :: mset t i m v

/-- `Object.entries(data).find(([x]) => x == ii)?.[1]` — the per-machine map of
one implementation. -/
def mlookup (acc : Matrix) (i : String) : Option (List (String × ℕ)) := lookupA acc i

/-- The matrix value at one (implementation, machine) key. -/
def mlookup2 (acc : Matrix) (i m : String) : Option ℕ :=
  (mlookup acc i).bind (fun inner => lookupA inner m)

/-! ### Grouping and minimum selection (lodash `groupBy`, `minBy`) -/

/-- One step of `groupBy(datafile, "impl")`: append the observation to its
group, creating the group at the end on first occurrence (lodash keeps keys in
first-encounter order and group members in input order). -/
def insertG (g : List (String × List Obs)) (o : Obs) : List (String × List Obs) :=
  match g with
  | [] => [(o.impl, [o])]
  | (k, vs) :: t => if k = o.impl then (k, vs ++ [o]) :: t else (k, vs) :: insertG t o

/-- Lodash `groupBy(datafile, "impl")`. -/
def groupByImpl (l : List Obs) : List (String × List Obs) := l.foldl insertG []

/-- Lodash `minBy(values, "cycles")`: the first element attaining the minimum
cycle count (later elements replace the current best only when strictly
smaller). -/
def minBy2 (l : List Obs) : Option Obs :=
  match l with
  | [] => none
  | x :: t => some (t.foldl (fun best o => if o.cycles < best.cycles then o else best) x)

/-- The fixed machine allow-list `machineOrder`. -/
def machineOrder : List String :=
  ["kivsa", "nakhash", "aljamus", "nuc", "akrav", "akavish", "pil", "arnevet"]

/-- Processing of one host directory's `data` file into the accumulator:
parse the file, group by implementation, and `set` each group's minimum-cycles
entry under `impl.machine` (the machine being the winning record's own parsed
`host` field). -/
def hostStep (acc : Matrix) (content : String) : Matrix :=
  (groupByImpl (fileObs content)).foldl
    (fun a kv =>
      match minBy2 kv.2 with
      | some w => mset a kv.1 w.machine w.cycles
      | none => a)
    acc

/-- The `data` constant of the script.  The input models the filesystem:
`readdirSync(dir)` as the list of entry names in directory order, paired with
the text of each entry's `data` file; directories outside `machineOrder` are
filtered away, the rest are folded into the matrix. -/
def dataOf (input : List (String × String)) : Matrix :=
  (input.filter (fun e => machineOrder.contains e.1)).foldl
    (fun acc e => hostStep acc e.2) []

/-- All observations the run parses (what §3's "Observation" lifecycle calls
the flat collection): files of allow-listed directories, in order. -/
def allObsOf (input : List (String × String)) : List Obs :=
  (input.filter (fun e => machineOrder.contains e.1)).flatMap (fun e => fileObs e.2)

/-- Minimum of a list of naturals, `none` on the empty list (specification-side
definition used to state the reducer claims). -/
def minList : List ℕ → Option ℕ
  | [] => none
  | x :: t =>
    match minList t with
    | none => some x
    | some m => some (Nat.min x m)

/-- Cycle counts of all observations sharing one (implementation, machine)
key — the quantity the reducer claims speak about. -/
def keyObs (i m : String) (l : List Obs) : List ℕ :=
  (l.filter (fun o => o.impl == i && o.machine == m)).map Obs.cycles

/-! ### Claim C1: counterexample input

Two allow-listed directories.  The file in `kivsa/data` carries a record whose
own `host` field says `nakhash` (the script trusts the parsed field, not the
directory): both directories therefore write the same `(x, nakhash)` key, and
the second write overwrites the first instead of taking the minimum. -/

def c1input : List (String × String) :=
  [("kivsa", "1 nakhash a 2 p t try c ok 50 1 1 x g_o"),
   ("nakhash", "1 nakhash a 2 p t try c ok 100 1 1 x g_o")]

/-- C1: the Aggregate Matrix value is NOT always the minimum cycle count over
all parsed Observations sharing the (implementation, host) key: on `c1input`
the stored value for `(x, nakhash)` is 100 while the true minimum is 50 (the
later directory's write overwrites the earlier one). -/
theorem c1_counterexample :
    mlookup2 (dataOf c1input) "x" "nakhash" = some 100 ∧
    minList (keyObs "x" "nakhash" (allObsOf c1input)) = some 50 ∧
    (100 : ℕ) ≠ 50 := by decide

/-! ### Structure of the reducer fold -/

theorem lookupA_nil {α : Type} (k : String) : lookupA ([] : List (String × α)) k = none := rfl

theorem lookupA_cons {α : Type} (k1 : String) (v : α) (t : List (String × α)) (k : String) :
    lookupA ((k1, v) :: t) k = if k1 = k then some v else lookupA t k := by
  unfold lookupA
  by_cases h : k1 = k <;> simp [List.find?, h]

theorem lookupA_msetInner (l : List (String × ℕ)) (m : String) (v : ℕ) (m1 : String) :
    lookupA (msetInner l m v) m1 = if m1 = m then some v else lookupA l m1 := by
  induction l with
  | nil =>
    by_cases h : m1 = m
    · subst h; simp [msetInner, lookupA_cons]
    · have hs : ¬ m = m1 := fun hh => h hh.symm
      simp [msetInner, lookupA_cons, h, hs]
  | cons e t ih =>
    obtain ⟨m2, v2⟩ := e
    by_cases h2 : m2 = m
    · subst h2
      by_cases h1 : m1 = m2
      · subst h1; simp [msetInner, lookupA_cons]
      · have hs : ¬ m2 = m1 := fun hh => h1 hh.symm
        simp [msetInner, lookupA_cons, h1, hs]
    · by_cases h1 : m1 = m
      · subst h1
        have hs : ¬ m2 = m1 := fun hh => h2 hh
        simp [msetInner, h2, lookupA_cons, ih, hs]
      · by_cases h3 : m2 = m1
        · subst h3; simp [msetInner, h2, lookupA_cons]
        · simp [msetInner, h2, lookupA_cons, h1, h3, ih]

theorem mlookup2_mset (acc : Matrix) (i m : String) (v : ℕ) (i1 m1 : String) :
    mlookup2 (mset acc i m v) i1 m1 =
      if i1 = i ∧ m1 = m then some v else mlookup2 acc i1 m1 := by
  induction acc with
  | nil =>
    by_cases hi : i1 = i
    · subst hi
      by_cases hm : m1 = m
      · subst hm; simp [mset, mlookup2, mlookup, lookupA_cons, lookupA_nil]
      · have hs : ¬ m = m1 := fun hh => hm hh.symm
        simp [mset, mlookup2, mlookup, lookupA_cons, lookupA_nil, hm, hs]
    · have hs : ¬ i = i1 := fun hh => hi hh.symm
      simp [mset, mlookup2, mlookup, lookupA_cons, lookupA_nil, hi, hs]
  | cons e t ih =>
    obtain ⟨i2, inner⟩ := e
    by_cases h2 : i2 = i
    · subst h2
      by_cases hi : i1 = i2
      · subst hi
        by_cases hm : m1 = m
        · subst hm
          simp [mset, mlookup2, mlookup, lookupA_cons, lookupA_msetInner]
        · simp [mset, mlookup2, mlookup, lookupA_cons, lookupA_msetInner, hm]
      · have hs : ¬ i2 = i1 := fun hh => hi hh.symm
        simp [mset, mlookup2, mlookup, lookupA_cons, hi, hs]
    · by_cases hi : i1 = i
      · subst hi
        have hne : ¬ i2 = i1 := fun hh => h2 hh
        simp only [mset, if_neg h2, mlookup2, mlookup, lookupA_cons,
          if_neg hne] at ih ⊢
        exact ih
      · by_cases h3 : i2 = i1
        · subst h3
          have hs : ¬ i2 = i := fun hh => h2 hh
          simp [mset, mlookup2, mlookup, lookupA_cons, hs, hi]
        · simp only [mset, if_neg h2, mlookup2, mlookup, lookupA_cons,
            if_neg h3] at ih ⊢
          exact ih

/-- Lookup after the not-found case. -/
theorem lookupA_eq_none {α : Type} (l : List (String × α)) (k : String)
    (h : k ∉ l.map Prod.fst) : lookupA l k = none := by
  induction l with
  | nil => rfl
  | cons e t ih =>
    have h1 : ¬ e.1 = k := fun hh => h (by simp [hh])
    obtain ⟨k1, v1⟩ := e
    rw [lookupA_cons, if_neg h1]
    exact ih (fun hh => h (by simp [hh]))

/-- With pairwise-distinct keys, membership determines the lookup. -/
theorem lookupA_eq_of_mem {α : Type} (l : List (String × α)) (kv : String × α)
    (hnd : (l.map Prod.fst).Nodup) (hm : kv ∈ l) : lookupA l kv.1 = some kv.2 := by
  induction l with
  | nil => cases hm
  | cons e t ih =>
    rcases List.mem_cons.mp hm with hm1 | hm1
    · subst hm1
      obtain ⟨k1, v1⟩ := kv
      simp [lookupA_cons]
    · obtain ⟨k1, v1⟩ := e
      have hk : kv.1 ∈ t.map Prod.fst := List.mem_map_of_mem Prod.fst hm1
      have h1 : ¬ k1 = kv.1 := by
        intro hh
        rw [List.map_cons, List.nodup_cons] at hnd
        exact hnd.1 (hh ▸ hk)
      rw [lookupA_cons, if_neg h1]
      exact ih (by
        rw [List.map_cons, List.nodup_cons] at hnd
        exact hnd.2) hm1

/-- Appending a group member to an optional group. -/
def optApp (o : Option (List Obs)) (l : List Obs) : Option (List Obs) :=
  match o, l with
  | none, [] => none
  | o, l => some (o.getD [] ++ l)

theorem insertG_nil (o : Obs) : insertG [] o = [(o.impl, [o])] := rfl

theorem insertG_cons (k : String) (vs : List Obs) (t : List (String × List Obs)) (o : Obs) :
    insertG ((k, vs) :: t) o =
      if k = o.impl then (k, vs ++ [o]) :: t else (k, vs) :: insertG t o := rfl

theorem lookupA_insertG (g : List (String × List Obs)) (o : Obs) (i : String) :
    lookupA (insertG g o) i =
      if i = o.impl then some ((lookupA g i).getD [] ++ [o]) else lookupA g i := by
  induction g with
  | nil =>
    by_cases h : i = o.impl
    · subst h; simp [insertG, lookupA_cons, lookupA_nil]
    · have hs : ¬ o.impl = i := fun hh => h hh.symm
      simp [insertG, lookupA_cons, lookupA_nil, h, hs]
  | cons e t ih =>
    obtain ⟨k, vs⟩ := e
    by_cases hk : k = o.impl
    · subst hk
      by_cases h : i = o.impl
      · subst h; simp [insertG, lookupA_cons]
      · have hs : ¬ o.impl = i := fun hh => h hh.symm
        simp [insertG, lookupA_cons, h, hs]
    · by_cases h : k = i
      · subst h
        simp [insertG, hk, lookupA_cons]
      · simp [insertG, hk, lookupA_cons, h, ih]

theorem lookupA_foldl_insertG (l : List Obs) :
    ∀ (g : List (String × List Obs)) (i : String),
      lookupA (l.foldl insertG g) i =
        optApp (lookupA g i) (l.filter (fun o => o.impl == i)) := by
  induction l with
  | nil =>
    intro g i
    cases h : lookupA g i <;> simp [optApp, h]
  | cons o t ih =>
    intro g i
    rw [List.foldl_cons, ih]
    by_cases hoi : o.impl = i
    · have hfil : (o :: t).filter (fun x => x.impl == i) =
          o :: t.filter (fun x => x.impl == i) := by
        simp [List.filter_cons, hoi]
      rw [hfil, lookupA_insertG, if_pos hoi.symm]
      cases h : lookupA g i <;> simp [optApp, h]
    · have hfil : (o :: t).filter (fun x => x.impl == i) =
          t.filter (fun x => x.impl == i) := by
        simp [List.filter_cons, hoi]
      rw [hfil, lookupA_insertG, if_neg (fun hh => hoi hh.symm)]

/-- Lodash `groupBy` groups are exactly the filters by key. -/
theorem lookupA_groupByImpl (l : List Obs) (i : String) :
    lookupA (groupByImpl l) i = optApp none (l.filter (fun o => o.impl == i)) := by
  unfold groupByImpl
  rw [lookupA_foldl_insertG]
  rfl

theorem mem_keys_insertG (g : List (String × List Obs)) (o : Obs) (i : String) :
    i ∈ (insertG g o).map Prod.fst ↔ i ∈ g.map Prod.fst ∨ i = o.impl := by
  induction g with
  | nil => simp [insertG]
  | cons e t ih =>
    obtain ⟨k, vs⟩ := e
    by_cases hk : k = o.impl
    · subst hk
      rw [insertG_cons, if_pos rfl]
      simp only [List.map_cons, List.mem_cons]
      tauto
    · rw [insertG_cons, if_neg hk]
      simp only [List.map_cons, List.mem_cons, ih]
      tauto

theorem nodup_keys_insertG (g : List (String × List Obs)) (o : Obs)
    (h : (g.map Prod.fst).Nodup) : ((insertG g o).map Prod.fst).Nodup := by
  induction g with
  | nil => simp [insertG]
  | cons e t ih =>
    obtain ⟨k, vs⟩ := e
    rw [List.map_cons, List.nodup_cons] at h
    by_cases hk : k = o.impl
    · subst hk
      simpa [insertG, List.nodup_cons] using h
    · simp only [insertG, if_neg hk, List.map_cons, List.nodup_cons]
      refine ⟨fun hm => ?_, ih h.2⟩
      rcases (mem_keys_insertG t o k).mp hm with hm | hm
      · exact h.1 hm
      · exact hk hm

theorem nodup_keys_groupByImpl (l : List Obs) :
    ((groupByImpl l).map Prod.fst).Nodup := by
  unfold groupByImpl
  suffices hgen : ∀ g : List (String × List Obs), (g.map Prod.fst).Nodup →
      ((l.foldl insertG g).map Prod.fst).Nodup from hgen [] (by simp)
  induction l with
  | nil => intro g hg; simpa using hg
  | cons o t ih =>
    intro g hg
    rw [List.foldl_cons]
    exact ih (insertG g o) (nodup_keys_insertG g o hg)

theorem nonempty_groups_insertG (g : List (String × List Obs)) (o : Obs)
    (h : ∀ kv ∈ g, kv.2 ≠ []) : ∀ kv ∈ insertG g o, kv.2 ≠ [] := by
  induction g with
  | nil =>
    intro kv hkv
    simp only [insertG, List.mem_singleton] at hkv
    subst hkv
    simp
  | cons e t ih =>
    obtain ⟨k, vs⟩ := e
    intro kv hkv
    by_cases hk : k = o.impl
    · subst hk
      rw [insertG_cons, if_pos rfl, List.mem_cons] at hkv
      rcases hkv with hkv1 | hkv1
      · subst hkv1; simp
      · exact h kv (List.mem_cons_of_mem _ hkv1)
    · rw [insertG_cons, if_neg hk, List.mem_cons] at hkv
      rcases hkv with hkv1 | hkv1
      · subst hkv1; exact h (k, vs) (List.mem_cons_self _ _)
      · exact ih (fun kv1 h1 => h kv1 (List.mem_cons_of_mem _ h1)) kv hkv1

theorem nonempty_groups_groupByImpl (l : List Obs) :
    ∀ kv ∈ groupByImpl l, kv.2 ≠ [] := by
  unfold groupByImpl
  suffices hgen : ∀ g : List (String × List Obs), (∀ kv ∈ g, kv.2 ≠ []) →
      ∀ kv ∈ l.foldl insertG g, kv.2 ≠ [] from hgen [] (by simp)
  induction l with
  | nil => intro g hg; simpa using hg
  | cons o t ih =>
    intro g hg
    rw [List.foldl_cons]
    exact ih (insertG g o) (nonempty_groups_insertG g o hg)

theorem minList_cons_none (a : ℕ) {l : List ℕ} (h : minList l = none) :
    minList (a :: l) = some a := by
  simp [minList, h]

theorem minList_cons_some (a : ℕ) {l : List ℕ} {m : ℕ} (h : minList l = some m) :
    minList (a :: l) = some (Nat.min a m) := by
  simp [minList, h]

/-- The lodash `minBy` fold returns an element of the list attaining the
minimum cycle count. -/
theorem minBy2_go (t : List Obs) : ∀ x : Obs,
    (t.foldl (fun best o => if o.cycles < best.cycles then o else best) x) ∈ x :: t ∧
    minList ((x :: t).map Obs.cycles) =
      some ((t.foldl (fun best o => if o.cycles < best.cycles then o else best) x).cycles) := by
  induction t with
  | nil => intro x; simp [minList]
  | cons o t1 ih =>
    intro x
    rw [List.foldl_cons]
    obtain ⟨ihm, ihv⟩ := ih (if o.cycles < x.cycles then o else x)
    constructor
    · rcases List.mem_cons.mp ihm with hh | hh
      · rw [hh]
        by_cases hc : o.cycles < x.cycles
        · simp [hc]
        · simp [hc]
      · simp [List.mem_cons, hh]
    · have hcyc : (if o.cycles < x.cycles then o else x).cycles =
          Nat.min x.cycles o.cycles := by
        by_cases hc : o.cycles < x.cycles
        · simp [hc]; omega
        · simp [hc]; omega
      rw [List.map_cons, hcyc] at ihv
      rw [List.map_cons, List.map_cons]
      cases hml : minList (t1.map Obs.cycles) with
      | none =>
        rw [minList_cons_none _ hml] at ihv
        rw [minList_cons_some x.cycles (minList_cons_none o.cycles hml),
          Option.some.inj ihv]
      | some mm =>
        rw [minList_cons_some _ hml] at ihv
        rw [minList_cons_some x.cycles (minList_cons_some o.cycles hml)]
        have hmin : Nat.min x.cycles (Nat.min o.cycles mm) =
            Nat.min (Nat.min x.cycles o.cycles) mm := (min_assoc _ _ _).symm
        exact (congrArg some hmin).trans ihv

theorem minBy2_spec (l : List Obs) (w : Obs) (h : minBy2 l = some w) :
    w ∈ l ∧ minList (l.map Obs.cycles) = some w.cycles := by
  cases l with
  | nil => cases h
  | cons x t =>
    have hw : w = t.foldl (fun best o => if o.cycles < best.cycles then o else best) x := by
      have : minBy2 (x :: t) =
          some (t.foldl (fun best o => if o.cycles < best.cycles then o else best) x) := rfl
      rw [this] at h
      exact (Option.some.inj h).symm
    obtain ⟨hm, hv⟩ := minBy2_go t x
    exact ⟨hw ▸ hm, hw ▸ hv⟩

theorem minBy2_of_ne_nil (l : List Obs) (h : l ≠ []) : ∃ w, minBy2 l = some w := by
  cases l with
  | nil => exact absurd rfl h
  | cons x t => exact ⟨_, rfl⟩

/-- The fold writing each group's `minBy` winner into the matrix, assuming
pairwise-distinct group keys, nonempty groups, and that every grouped
observation carries machine tag `h`. -/
theorem mlookup2_foldl_groups (h : String) (i m : String) (gs : List (String × List Obs)) :
    ∀ acc : Matrix,
    (gs.map Prod.fst).Nodup →
    (∀ kv ∈ gs, kv.2 ≠ []) →
    (∀ kv ∈ gs, ∀ o ∈ kv.2, o.machine = h) →
    mlookup2 (gs.foldl
        (fun a kv =>
          match minBy2 kv.2 with
          | some w => mset a kv.1 w.machine w.cycles
          | none => a)
        acc) i m =
      match lookupA gs i with
      | some vs => if m = h then minList (vs.map Obs.cycles) else mlookup2 acc i m
      | none => mlookup2 acc i m := by
  induction gs with
  | nil => intro acc _ _ _; rfl
  | cons kv rest ih =>
    intro acc hnd hne hmach
    obtain ⟨k, vs⟩ := kv
    have hvs : vs ≠ [] := hne (k, vs) (List.mem_cons_self _ _)
    obtain ⟨w, hw⟩ := minBy2_of_ne_nil vs hvs
    obtain ⟨hwmem, hwval⟩ := minBy2_spec vs w hw
    have hwm : w.machine = h := hmach (k, vs) (List.mem_cons_self _ _) w hwmem
    rw [List.foldl_cons]
    have hstep :
        (match minBy2 vs with
          | some w1 => mset acc k w1.machine w1.cycles
          | none => acc) = mset acc k h w.cycles := by
      rw [hw]
      show mset acc k w.machine w.cycles = mset acc k h w.cycles
      rw [hwm]
    rw [hstep]
    rw [List.map_cons, List.nodup_cons] at hnd
    have ihh := ih (mset acc k h w.cycles) hnd.2
      (fun kv1 h1 => hne kv1 (List.mem_cons_of_mem _ h1))
      (fun kv1 h1 => hmach kv1 (List.mem_cons_of_mem _ h1))
    rw [ihh]
    by_cases hk : k = i
    · subst hk
      have hrest : lookupA rest k = none := lookupA_eq_none rest k hnd.1
      by_cases hm : m = h
      · subst hm
        simp [hrest, lookupA_cons, mlookup2_mset, hwval]
      · simp [hrest, lookupA_cons, mlookup2_mset, hm]
    · have hik : ¬ i = k := fun hc => hk hc.symm
      cases hrest : lookupA rest i with
      | some vs1 =>
        by_cases hm : m = h
        · subst hm
          simp [hrest, lookupA_cons, hk]
        · simp [hrest, lookupA_cons, hk, hm, mlookup2_mset, hik]
      | none =>
        simp [hrest, lookupA_cons, hk, mlookup2_mset, hik]

theorem optApp_none_nil : optApp none [] = none := rfl

theorem optApp_none_cons (x : Obs) (t : List Obs) : optApp none (x :: t) = some (x :: t) := rfl

/-- Members of lodash groups come from the grouped list. -/
theorem groups_sub (l : List Obs) : ∀ kv ∈ groupByImpl l, ∀ o ∈ kv.2, o ∈ l := by
  intro kv hkv o ho
  have hlk := lookupA_eq_of_mem _ kv (nodup_keys_groupByImpl l) hkv
  rw [lookupA_groupByImpl] at hlk
  cases hfil : l.filter (fun o1 => o1.impl == kv.1) with
  | nil => rw [hfil, optApp_none_nil] at hlk; cases hlk
  | cons x t =>
    rw [hfil, optApp_none_cons] at hlk
    have hkv2 : kv.2 = x :: t := (Option.some.inj hlk).symm
    rw [hkv2] at ho
    have hof : o ∈ l.filter (fun o1 => o1.impl == kv.1) := hfil.symm ▸ ho
    exact List.mem_of_mem_filter hof

theorem keyObs_nil (i m : String) : keyObs i m [] = [] := rfl

theorem keyObs_append (i m : String) (a b : List Obs) :
    keyObs i m (a ++ b) = keyObs i m a ++ keyObs i m b := by
  simp [keyObs]

theorem keyObs_eq_nil_of_machine_ne (i m : String) (l : List Obs)
    (h : ∀ o ∈ l, o.machine ≠ m) : keyObs i m l = [] := by
  unfold keyObs
  have : l.filter (fun o => o.impl == i && o.machine == m) = [] := by
    rw [List.filter_eq_nil_iff]
    intro o ho
    simp only [Bool.and_eq_true, beq_iff_eq, not_and]
    exact fun _ => h o ho
  rw [this, List.map_nil]

/-- When every observation of a list carries the same machine tag, the
per-key cycle list collapses to the per-implementation filter. -/
theorem keyObs_collapse (i h : String) (l : List Obs)
    (htag : ∀ o ∈ l, o.machine = h) :
    keyObs i h l = (l.filter (fun o => o.impl == i)).map Obs.cycles := by
  unfold keyObs
  congr 1
  apply List.filter_congr
  intro o ho
  simp [htag o ho]

/-- Effect of one host directory on the matrix, assuming the file's
observations all carry machine tag `h`: every implementation key occurring in
the file gets (at machine `h`) the minimum cycle count of its group, all other
entries are untouched. -/
theorem mlookup2_hostStep (acc : Matrix) (content : String) (h : String)
    (htag : ∀ o ∈ fileObs content, o.machine = h) (i m : String) :
    mlookup2 (hostStep acc content) i m =
      if m = h ∧ (fileObs content).filter (fun o => o.impl == i) ≠ [] then
        minList (((fileObs content).filter (fun o => o.impl == i)).map Obs.cycles)
      else mlookup2 acc i m := by
  unfold hostStep
  rw [mlookup2_foldl_groups h i m (groupByImpl (fileObs content)) acc
    (nodup_keys_groupByImpl _) (nonempty_groups_groupByImpl _)
    (fun kv hkv o ho => htag o (groups_sub _ kv hkv o ho))]
  rw [lookupA_groupByImpl]
  cases hfil : (fileObs content).filter (fun o => o.impl == i) with
  | nil =>
    rw [optApp_none_nil, if_neg (fun hc => hc.2 rfl)]
  | cons x t =>
    rw [optApp_none_cons]
    by_cases hm : m = h
    · rw [if_pos ⟨hm, by simp⟩]
      simp [hm]
    · rw [if_neg (fun hc => hm hc.1)]
      simp [hm]

/-- Processing a list of host directories, given: consistent machine tags,
distinct directory names, machines of already-reduced observations disjoint
from the upcoming directories, and an accumulator that already holds the
minima of the reduced observations. -/
theorem dataOf_go (rel : List (String × String)) : ∀ (acc : Matrix) (done : List Obs),
    (∀ e ∈ rel, ∀ o ∈ fileObs e.2, o.machine = e.1) →
    ((rel.map Prod.fst).Nodup) →
    (∀ o ∈ done, ∀ e ∈ rel, o.machine ≠ e.1) →
    (∀ i m, mlookup2 acc i m = minList (keyObs i m done)) →
    ∀ i m, mlookup2 (rel.foldl (fun a e => hostStep a e.2) acc) i m =
      minList (keyObs i m (done ++ rel.flatMap (fun e => fileObs e.2))) := by
  induction rel with
  | nil =>
    intro acc done _ _ _ hacc i m
    simpa using hacc i m
  | cons e rest ih =>
    intro acc done htag hnd hdone hacc i m
    obtain ⟨h, content⟩ := e
    rw [List.foldl_cons]
    have htag0 : ∀ o ∈ fileObs content, o.machine = h :=
      htag (h, content) (List.mem_cons_self _ _)
    have hdone0 : ∀ o ∈ done, o.machine ≠ h :=
      fun o ho => hdone o ho (h, content) (List.mem_cons_self _ _)
    rw [List.map_cons, List.nodup_cons] at hnd
    have hacc1 : ∀ i1 m1, mlookup2 (hostStep acc content) i1 m1 =
        minList (keyObs i1 m1 (done ++ fileObs content)) := by
      intro i1 m1
      rw [mlookup2_hostStep acc content h htag0, keyObs_append]
      by_cases hm : m1 = h
      · subst hm
        rw [keyObs_eq_nil_of_machine_ne i1 m1 done hdone0, List.nil_append]
        cases hfil : (fileObs content).filter (fun o => o.impl == i1) with
        | nil =>
          rw [if_neg (fun hc => hc.2 rfl)]
          rw [hacc i1 m1, keyObs_eq_nil_of_machine_ne i1 m1 done hdone0]
          rw [keyObs_collapse i1 m1 (fileObs content) htag0, hfil]
          rfl
        | cons x t =>
          rw [if_pos ⟨rfl, by simp⟩]
          rw [keyObs_collapse i1 m1 (fileObs content) htag0, hfil]
      · have hobs : keyObs i1 m1 (fileObs content) = [] :=
          keyObs_eq_nil_of_machine_ne i1 m1 (fileObs content)
            (fun o ho => fun hc => hm ((htag0 o ho) ▸ hc).symm)
        rw [if_neg (fun hc => hm hc.1), hacc i1 m1, hobs, List.append_nil]
    have hdone1 : ∀ o ∈ done ++ fileObs content, ∀ e1 ∈ rest, o.machine ≠ e1.1 := by
      intro o ho e1 he1
      rcases List.mem_append.mp ho with ho1 | ho1
      · exact hdone o ho1 e1 (List.mem_cons_of_mem _ he1)
      · rw [htag0 o ho1]
        intro hc
        have hmem : e1.1 ∈ rest.map Prod.fst := List.mem_map_of_mem Prod.fst he1
        rw [← hc] at hmem
        exact hnd.1 hmem
    have := ih (hostStep acc content) (done ++ fileObs content)
      (fun e1 he1 => htag e1 (List.mem_cons_of_mem _ he1)) hnd.2 hdone1 hacc1 i m
    rw [this, List.flatMap_cons, List.append_assoc]

theorem minList_mem (l : List ℕ) (v : ℕ) (h : minList l = some v) : v ∈ l := by
  induction l with
  | nil => cases h
  | cons a t ih =>
    cases hml : minList t with
    | none =>
      rw [minList_cons_none a hml] at h
      rw [← Option.some.inj h]
      exact List.mem_cons_self a t
    | some mm =>
      rw [minList_cons_some a hml] at h
      have hv := Option.some.inj h
      rcases Nat.le_total a mm with hle | hle
      · have : Nat.min a mm = a := Nat.min_eq_left hle
        rw [this] at hv
        exact hv ▸ List.mem_cons_self a t
      · have : Nat.min a mm = mm := Nat.min_eq_right hle
        rw [this] at hv
        exact List.mem_cons_of_mem a (ih (hv ▸ hml))

/-- C1 (amended): provided every parsed Observation's `host` field names the
directory it was read from, and directory names are pairwise distinct (as
`readdirSync` guarantees), every (implementation, host) entry of the Aggregate
Matrix equals the minimum cycle count over all parsed Observations sharing that
key, and an entry exists exactly when such an Observation exists; in
particular every stored value is witnessed by a real Observation of the same
key (no fabricated data). -/
theorem c1_matrix_min (input : List (String × String))
    (htag : ∀ e ∈ input, ∀ o ∈ fileObs e.2, o.machine = e.1)
    (hnd : (input.map Prod.fst).Nodup) (i m : String) :
    mlookup2 (dataOf input) i m = minList (keyObs i m (allObsOf input)) ∧
    (∀ v, mlookup2 (dataOf input) i m = some v →
      ∃ o, o ∈ allObsOf input ∧ o.impl = i ∧ o.machine = m ∧ o.cycles = v) := by
  have heq : mlookup2 (dataOf input) i m = minList (keyObs i m (allObsOf input)) := by
    have hrel : ∀ e ∈ input.filter (fun e => machineOrder.contains e.1),
        ∀ o ∈ fileObs e.2, o.machine = e.1 :=
      fun e he => htag e (List.mem_of_mem_filter he)
    have hndrel : (((input.filter (fun e => machineOrder.contains e.1)).map Prod.fst)).Nodup :=
      List.Nodup.sublist ((List.filter_sublist input).map Prod.fst) hnd
    have hgo := dataOf_go (input.filter (fun e => machineOrder.contains e.1)) [] []
      hrel hndrel (by intro o ho; cases ho) (by intro i1 m1; rfl) i m
    unfold dataOf allObsOf
    rw [hgo, List.nil_append]
  refine ⟨heq, fun v hv => ?_⟩
  rw [heq] at hv
  have hvm := minList_mem _ v hv
  unfold keyObs at hvm
  obtain ⟨o, hof, hoc⟩ := List.mem_map.mp hvm
  have homem := List.mem_of_mem_filter hof
  have hop := List.of_mem_filter hof
  simp only [Bool.and_eq_true, beq_iff_eq] at hop
  exact ⟨o, homem, hop.1, hop.2, hoc⟩

def c1winput : List (String × String) :=
  [("kivsa", "1 kivsa a 2 p t try c ok 50 1 1 x g_o\n1 kivsa a 2 p t try c ok 30 1 1 x clang_-O2"),
   ("nakhash", "1 nakhash a 2 p t try c ok 40 1 1 x g_o")]

theorem c1_matrix_min_witness :
    ((∀ e ∈ c1winput, ∀ o ∈ fileObs e.2, o.machine = e.1) ∧
      (c1winput.map Prod.fst).Nodup) ∧
    (mlookup2 (dataOf c1winput) "x" "kivsa" =
        minList (keyObs "x" "kivsa" (allObsOf c1winput)) ∧
      (∀ v, mlookup2 (dataOf c1winput) "x" "kivsa" = some v →
        ∃ o, o ∈ allObsOf c1winput ∧ o.impl = "x" ∧ o.machine = "kivsa" ∧ o.cycles = v)) :=
  ⟨⟨by decide, by decide⟩, c1_matrix_min c1winput (by decide) (by decide) "x" "kivsa"⟩

/-! ### Soundness of the pattern matcher

Membership in a combinator's result list yields the expected decomposition of
the input; chaining these through `matchAt` shows that every reported match
decomposes the line into the grammar's fields. -/

theorem mem_pseq {α β : Type} {p : Prs α} {q : α → Prs β} {x : β × List Char}
    {s : List Char} : x ∈ pseq p q s ↔ ∃ a r, (a, r) ∈ p s ∧ x ∈ q a r := by
  unfold pseq
  rw [List.mem_flatMap]
  constructor
  · rintro ⟨⟨a, r⟩, har, hx⟩
    exact ⟨a, r, har, hx⟩
  · rintro ⟨a, r, har, hx⟩
    exact ⟨(a, r), har, hx⟩

theorem mem_ppure {α : Type} {a : α} {x : α × List Char} {s : List Char} :
    x ∈ ppure a s ↔ x = (a, s) := by
  unfold ppure
  simp

theorem mem_plus1 {p : Char → Bool} {a r : List Char} {s : List Char}
    (h : (a, r) ∈ plus1 p s) : a ≠ [] ∧ a.all p = true ∧ s = a ++ r := by
  unfold plus1 at h
  simp only [List.mem_map, List.mem_range] at h
  obtain ⟨k, hk, he⟩ := h
  have ha : a = (s.takeWhile p).take ((s.takeWhile p).length - k) :=
    (congrArg Prod.fst he).symm
  have hr : r = (s.takeWhile p).drop ((s.takeWhile p).length - k) ++ s.dropWhile p :=
    (congrArg Prod.snd he).symm
  refine ⟨?_, ?_, ?_⟩
  · rw [ha]
    intro hnil
    have hlen2 := congrArg List.length hnil
    rw [List.length_take] at hlen2
    simp only [List.length_nil] at hlen2
    omega
  · rw [ha]
    exact List.all_eq_true.mpr fun c hc =>
      List.all_eq_true.mp List.all_takeWhile c (List.take_subset _ _ hc)
  · rw [ha, hr, ← List.append_assoc, List.take_append_drop,
      List.takeWhile_append_dropWhile]

theorem mem_plit {t r s : List Char} (h : ((), r) ∈ plit t s) : s = t ++ r := by
  unfold plit at h
  by_cases hp : t.isPrefixOf s
  · rw [if_pos hp, List.mem_singleton] at h
    have hr : r = s.drop t.length := congrArg Prod.snd h
    obtain ⟨u, hu⟩ := List.isPrefixOf_iff_prefix.mp hp
    rw [hr, ← hu, List.drop_left]
  · rw [if_neg hp] at h
    cases h

theorem mem_pstatus {st r : List Char} {s : List Char}
    (h : (st, r) ∈ pstatus s) :
    (st = "ok".toList ∨ st = "unknown".toList) ∧ s = st ++ r := by
  unfold pstatus at h
  rcases List.mem_append.mp h with h1 | h1
  · obtain ⟨⟨u, r1⟩, hu, he⟩ := List.mem_map.mp h1
    have hst : st = "ok".toList := (congrArg Prod.fst he).symm
    have hr : r = r1 := (congrArg Prod.snd he).symm
    have := mem_plit (t := "ok".toList) (r := r1) (s := s) (by
      cases u
      exact hu)
    subst hr
    exact ⟨Or.inl hst, hst ▸ this⟩
  · obtain ⟨⟨u, r1⟩, hu, he⟩ := List.mem_map.mp h1
    have hst : st = "unknown".toList := (congrArg Prod.fst he).symm
    have hr : r = r1 := (congrArg Prod.snd he).symm
    have := mem_plit (t := "unknown".toList) (r := r1) (s := s) (by
      cases u
      exact hu)
    subst hr
    exact ⟨Or.inr hst, hst ▸ this⟩

theorem mem_popt {α : Type} {p : Prs α} {o : Option α} {r s : List Char}
    (h : (o, r) ∈ popt p s) :
    (∃ a, o = some a ∧ (a, r) ∈ p s) ∨ (o = none ∧ r = s) := by
  unfold popt at h
  rcases List.mem_append.mp h with h1 | h1
  · obtain ⟨⟨a, r1⟩, ha, he⟩ := List.mem_map.mp h1
    have ho : o = some a := (congrArg Prod.fst he).symm
    have hr : r = r1 := (congrArg Prod.snd he).symm
    exact Or.inl ⟨a, ho, hr ▸ ha⟩
  · rw [List.mem_singleton] at h1
    exact Or.inr ⟨congrArg Prod.fst h1, congrArg Prod.snd h1⟩

theorem mem_pannot {a r : List Char} {s : List Char} (h : (a, r) ∈ pannot s) :
    s = a ++ r := by
  unfold pannot at h
  rw [mem_pseq] at h
  obtain ⟨u1, r1, h1, h⟩ := h
  rw [mem_pseq] at h
  obtain ⟨w1, r2, h2, h⟩ := h
  rw [mem_pseq] at h
  obtain ⟨u2, r3, h3, h⟩ := h
  rw [mem_pseq] at h
  obtain ⟨w2, r4, h4, h⟩ := h
  rw [mem_pseq] at h
  obtain ⟨u3, r5, h5, h⟩ := h
  rw [mem_ppure] at h
  obtain ⟨w1ne, w1all, he2⟩ := mem_plus1 h2
  obtain ⟨w2ne, w2all, he4⟩ := mem_plus1 h4
  have he1 : s = ['('] ++ r1 := by
    cases u1
    exact mem_plit h1
  have he3 : r2 = "placeasm:".toList ++ r3 := by
    cases u2
    exact mem_plit h3
  have he5 : r4 = [')'] ++ r5 := by
    cases u3
    exact mem_plit h5
  have ha : a = '(' :: (w1 ++ ("placeasm:".toList ++ (w2 ++ [')']))) :=
    congrArg Prod.fst h
  have hr : r = r5 := congrArg Prod.snd h
  rw [he1, he2, he3, he4, he5, ha, hr]
  simp

/-- Well-formedness of a reported match: every named capture is a nonempty
string over its character class and the status token is `ok` or `unknown` —
the field grammar of §4.1. -/
def GroupsLOk (g : GroupsL) : Prop :=
  g.scv ≠ [] ∧ g.scv.all digitChar = true ∧
  g.host ≠ [] ∧ g.host.all wordChar = true ∧
  g.abi ≠ [] ∧ g.abi.all wordChar = true ∧
  g.date ≠ [] ∧ g.date.all digitChar = true ∧
  g.primitive ≠ [] ∧ g.primitive.all wordChar = true ∧
  g.timecop ≠ [] ∧ g.timecop.all tcChar = true ∧
  g.checksum ≠ [] ∧ g.checksum.all tcChar = true ∧
  (g.status = "ok".toList ∨ g.status = "unknown".toList) ∧
  g.cycles ≠ [] ∧ g.cycles.all digitChar = true ∧
  g.chksmcycles ≠ [] ∧ g.chksmcycles.all digitChar = true ∧
  g.cyclespersecond ≠ [] ∧ g.cyclespersecond.all digitChar = true ∧
  g.impl ≠ [] ∧ g.impl.all implChar = true ∧
  g.cc ≠ [] ∧ g.cc.all ccChar = true ∧
  g.cflags ≠ [] ∧ g.cflags.all cflagsChar = true

/-- Reassembly of a match from its captures: the text `DB_REG_OK` matched. -/
def assembleG (g : GroupsL) : List Char :=
  g.scv ++ ' ' :: g.host ++ ' ' :: g.abi ++ ' ' :: g.date ++ ' ' :: g.primitive ++
  ' ' :: g.timecop ++ " try".toList ++ g.annot ++ ' ' :: g.checksum ++ ' ' :: g.status ++
  ' ' :: g.cycles ++ ' ' :: g.chksmcycles ++ ' ' :: g.cyclespersecond ++ ' ' :: g.impl ++
  ' ' :: g.cc ++ '_' :: g.cflags

/-- Every match `matchAt` reports decomposes the input into the grammar's
fields: the consumed prefix is exactly the captures joined by the pattern's
literals, and each capture is class-pure and nonempty. -/
theorem matchAt_sound {g : GroupsL} {r s : List Char} (h : (g, r) ∈ matchAt s) :
    GroupsLOk g ∧ s = assembleG g ++ r := by
  unfold matchAt at h
  rw [mem_pseq] at h; obtain ⟨scv, r1, hp1, h⟩ := h
  rw [mem_pseq] at h; obtain ⟨u2, r2, hp2, h⟩ := h
  rw [mem_pseq] at h; obtain ⟨host, r3, hp3, h⟩ := h
  rw [mem_pseq] at h; obtain ⟨u4, r4, hp4, h⟩ := h
  rw [mem_pseq] at h; obtain ⟨abi, r5, hp5, h⟩ := h
  rw [mem_pseq] at h; obtain ⟨u6, r6, hp6, h⟩ := h
  rw [mem_pseq] at h; obtain ⟨date, r7, hp7, h⟩ := h
  rw [mem_pseq] at h; obtain ⟨u8, r8, hp8, h⟩ := h
  rw [mem_pseq] at h; obtain ⟨primitive, r9, hp9, h⟩ := h
  rw [mem_pseq] at h; obtain ⟨u10, r10, hp10, h⟩ := h
  rw [mem_pseq] at h; obtain ⟨timecop, r11, hp11, h⟩ := h
  rw [mem_pseq] at h; obtain ⟨u12, r12, hp12, h⟩ := h
  rw [mem_pseq] at h; obtain ⟨annot, r13, hp13, h⟩ := h
  rw [mem_pseq] at h; obtain ⟨u14, r14, hp14, h⟩ := h
  rw [mem_pseq] at h; obtain ⟨checksum, r15, hp15, h⟩ := h
  rw [mem_pseq] at h; obtain ⟨u16, r16, hp16, h⟩ := h
  rw [mem_pseq] at h; obtain ⟨status, r17, hp17, h⟩ := h
  rw [mem_pseq] at h; obtain ⟨u18, r18, hp18, h⟩ := h
  rw [mem_pseq] at h; obtain ⟨cycles, r19, hp19, h⟩ := h
  rw [mem_pseq] at h; obtain ⟨u20, r20, hp20, h⟩ := h
  rw [mem_pseq] at h; obtain ⟨chksmcycles, r21, hp21, h⟩ := h
  rw [mem_pseq] at h; obtain ⟨u22, r22, hp22, h⟩ := h
  rw [mem_pseq] at h; obtain ⟨cps, r23, hp23, h⟩ := h
  rw [mem_pseq] at h; obtain ⟨u24, r24, hp24, h⟩ := h
  rw [mem_pseq] at h; obtain ⟨impl, r25, hp25, h⟩ := h
  rw [mem_pseq] at h; obtain ⟨u26, r26, hp26, h⟩ := h
  rw [mem_pseq] at h; obtain ⟨cc, r27, hp27, h⟩ := h
  rw [mem_pseq] at h; obtain ⟨u28, r28, hp28, h⟩ := h
  rw [mem_pseq] at h; obtain ⟨cflags, r29, hp29, h⟩ := h
  rw [mem_ppure] at h
  have hg : g = ⟨scv, host, abi, date, primitive, timecop, annot.getD [], checksum,
      status, cycles, chksmcycles, cps, impl, cc, cflags⟩ := congrArg Prod.fst h
  have hrr : r = r29 := congrArg Prod.snd h
  obtain ⟨hne1, hall1, he1⟩ := mem_plus1 hp1
  have he2 : r1 = [' '] ++ r2 := by cases u2; exact mem_plit hp2
  obtain ⟨hne3, hall3, he3⟩ := mem_plus1 hp3
  have he4 : r3 = [' '] ++ r4 := by cases u4; exact mem_plit hp4
  obtain ⟨hne5, hall5, he5⟩ := mem_plus1 hp5
  have he6 : r5 = [' '] ++ r6 := by cases u6; exact mem_plit hp6
  obtain ⟨hne7, hall7, he7⟩ := mem_plus1 hp7
  have he8 : r7 = [' '] ++ r8 := by cases u8; exact mem_plit hp8
  obtain ⟨hne9, hall9, he9⟩ := mem_plus1 hp9
  have he10 : r9 = [' '] ++ r10 := by cases u10; exact mem_plit hp10
  obtain ⟨hne11, hall11, he11⟩ := mem_plus1 hp11
  have he12 : r11 = " try".toList ++ r12 := by cases u12; exact mem_plit hp12
  have he13 : r12 = annot.getD [] ++ r13 := by
    rcases mem_popt hp13 with ⟨a, ha, hm⟩ | ⟨ha, hm⟩
    · rw [ha, Option.getD_some]
      exact mem_pannot hm
    · rw [ha, Option.getD_none, List.nil_append, hm]
  have he14 : r13 = [' '] ++ r14 := by cases u14; exact mem_plit hp14
  obtain ⟨hne15, hall15, he15⟩ := mem_plus1 hp15
  have he16 : r15 = [' '] ++ r16 := by cases u16; exact mem_plit hp16
  obtain ⟨hst, he17⟩ := mem_pstatus hp17
  have he18 : r17 = [' '] ++ r18 := by cases u18; exact mem_plit hp18
  obtain ⟨hne19, hall19, he19⟩ := mem_plus1 hp19
  have he20 : r19 = [' '] ++ r20 := by cases u20; exact mem_plit hp20
  obtain ⟨hne21, hall21, he21⟩ := mem_plus1 hp21
  have he22 : r21 = [' '] ++ r22 := by cases u22; exact mem_plit hp22
  obtain ⟨hne23, hall23, he23⟩ := mem_plus1 hp23
  have he24 : r23 = [' '] ++ r24 := by cases u24; exact mem_plit hp24
  obtain ⟨hne25, hall25, he25⟩ := mem_plus1 hp25
  have he26 : r25 = [' '] ++ r26 := by cases u26; exact mem_plit hp26
  obtain ⟨hne27, hall27, he27⟩ := mem_plus1 hp27
  have he28 : r27 = ['_'] ++ r28 := by cases u28; exact mem_plit hp28
  obtain ⟨hne29, hall29, he29⟩ := mem_plus1 hp29
  constructor
  · rw [hg]
    exact ⟨hne1, hall1, hne3, hall3, hne5, hall5, hne7, hall7, hne9, hall9,
      hne11, hall11, hne15, hall15, hst, hne19, hall19, hne21, hall21,
      hne23, hall23, hne25, hall25, hne27, hall27, hne29, hall29⟩
  · rw [hg, hrr]
    rw [he1, he2, he3, he4, he5, he6, he7, he8, he9, he10, he11, he12, he13,
      he14, he15, he16, he17, he18, he19, he20, he21, he22, he23, he24, he25,
      he26, he27, he28, he29]
    simp [assembleG, List.append_assoc]

theorem head?_mem {α : Type} {l : List α} {x : α} (h : l.head? = some x) : x ∈ l := by
  cases l with
  | nil => cases h
  | cons a t =>
    rw [List.head?_cons] at h
    rw [← Option.some.inj h]
    exact List.mem_cons_self a t

/-- Soundness of the unanchored `exec` scan: a reported match decomposes the
line as (junk prefix) ++ (grammar fields) ++ (junk suffix). -/
theorem execFrom_sound {s : List Char} {g : GroupsL} (h : execFrom s = some g) :
    GroupsLOk g ∧ ∃ pre r, s = pre ++ (assembleG g ++ r) := by
  induction s with
  | nil =>
    simp only [execFrom] at h
    obtain ⟨⟨g1, r1⟩, hm, hg⟩ := List.mem_map.mp (head?_mem h)
    have hg2 : g1 = g := hg
    obtain ⟨hok, hdec⟩ := matchAt_sound hm
    rw [hg2] at hok hdec
    exact ⟨hok, [], r1, by rw [← hdec]; rfl⟩
  | cons c t ih =>
    simp only [execFrom] at h
    cases hm : (matchAt (c :: t)).head? with
    | some gr =>
      rw [hm] at h
      have hg : gr.1 = g := Option.some.inj h
      have hmem : gr ∈ matchAt (c :: t) := head?_mem hm
      obtain ⟨hok, hdec⟩ :=
        matchAt_sound (show (gr.1, gr.2) ∈ matchAt (c :: t) from hmem)
      rw [hg] at hok hdec
      exact ⟨hok, [], gr.2, by rw [← hdec]; rfl⟩
    | none =>
      rw [hm] at h
      obtain ⟨hok, pre, r1, hdec⟩ := ih h
      exact ⟨hok, c :: pre, r1, by rw [List.cons_append, ← hdec]⟩

/-- C2 (amended): objsize-tagged lines and non-matching lines contribute no
Observation; a line on which `DB_REG_OK` reports a match decomposes into the
grammar's fields with status token `ok` OR `unknown` (the regex accepts both),
and — unless the line is objsize-tagged — the parser yields the record whose
implementation and host are the matched substrings verbatim and whose cycle
count is the matched digit string read as a decimal integer. -/
theorem c2_parser_amended (line : String) :
    (containsObjsize line = true → parseLine line = none) ∧
    (execS line = none → parseLine line = none) ∧
    (∀ gl, execFrom line.toList = some gl →
      GroupsLOk gl ∧
      (∃ pre r, line.toList = pre ++ (assembleG gl ++ r)) ∧
      (containsObjsize line = false →
        parseLine line = some ⟨gl.impl.asString, decNat gl.cycles, gl.host.asString⟩)) := by
  refine ⟨fun h => ?_, fun h => ?_, fun gl hgl => ?_⟩
  · simp [parseLine, h]
  · by_cases ho : containsObjsize line <;> simp [parseLine, ho, h]
  · obtain ⟨hok, pre, r1, hdec⟩ := execFrom_sound hgl
    refine ⟨hok, ⟨pre, r1, hdec⟩, fun ho => ?_⟩
    have hes : execS line = some (packG gl) := by
      unfold execS
      rw [hgl]
      rfl
    have hpl : parseLine line = some (mkObs (packG gl)) := by
      simp [parseLine, ho, hes]
    rw [hpl]
    rfl

def c2wline : String := "1 nakhash a 2 p t try c ok 50 1 1 x g_o"

def c2wgl : GroupsL :=
  ⟨"1".toList, "nakhash".toList, "a".toList, "2".toList, "p".toList, "t".toList,
   [], "c".toList, "ok".toList, "50".toList, "1".toList, "1".toList,
   "x".toList, "g".toList, "o".toList⟩

theorem c2_parser_amended_witness :
    (execFrom c2wline.toList = some c2wgl ∧ containsObjsize c2wline = false) ∧
    (GroupsLOk c2wgl ∧
      (∃ pre r, c2wline.toList = pre ++ (assembleG c2wgl ++ r)) ∧
      (containsObjsize c2wline = false →
        parseLine c2wline =
          some ⟨c2wgl.impl.asString, decNat c2wgl.cycles, c2wgl.host.asString⟩)) :=
  ⟨⟨by decide, by decide⟩, (c2_parser_amended c2wline).2.2 c2wgl (by decide)⟩

/-! ### Claim C2: counterexample line -/

def c2uline : String := "1 nakhash a 2 p t try c unknown 50 1 1 x g_o"

/-- C2: a line that matches the log-line grammar with status token `unknown`
does NOT yield "no match": `DB_REG_OK` accepts `(ok|unknown)`, so the parser
produces an Observation from it. -/
theorem c2_counterexample :
    (execS c2uline).map Groups.status = some "unknown" ∧
    parseLine c2uline = some ⟨"x", 50, "nakhash"⟩ ∧
    parseLine c2uline ≠ none := by decide

/-- C5 (amended): the Host Loader tags every Observation with the `host` field
parsed from the observation's own log line (`machine: g.host`), not with the
name of the directory the `data` file was read from; the two coincide exactly
for files whose matching lines all carry that directory's host token. -/
theorem c5_tagged_with_parsed_host (content : String) :
    (∀ o ∈ fileObs content,
      ∃ l, l ∈ linesOf content ∧ ∃ g, execS l = some g ∧ o = mkObs g ∧ o.machine = g.host) ∧
    (∀ h, (∀ l ∈ linesOf content, ∀ g, execS l = some g → g.host = h) →
      ∀ o ∈ fileObs content, o.machine = h) := by
  constructor
  · intro o ho
    unfold fileObs at ho
    obtain ⟨g, hg, hog⟩ := List.mem_map.mp ho
    obtain ⟨l, hl, hlg⟩ := List.mem_filterMap.mp hg
    exact ⟨l, List.mem_of_mem_filter hl, g, hlg, hog.symm, by rw [← hog]; rfl⟩
  · intro h hw o ho
    unfold fileObs at ho
    obtain ⟨g, hg, hog⟩ := List.mem_map.mp ho
    obtain ⟨l, hl, hlg⟩ := List.mem_filterMap.mp hg
    have := hw l (List.mem_of_mem_filter hl) g hlg
    rw [← hog]
    exact this

def c5wcontent : String := "1 kivsa a 2 p t try c ok 50 1 1 x g_o"

theorem c5_tagged_with_parsed_host_witness :
    ((∀ l ∈ linesOf c5wcontent, ∀ g, execS l = some g → g.host = "kivsa") ∧
      (⟨"x", 50, "kivsa"⟩ : Obs) ∈ fileObs c5wcontent) ∧
    (⟨"x", 50, "kivsa"⟩ : Obs).machine = "kivsa" :=
  ⟨⟨by decide, by decide⟩,
    (c5_tagged_with_parsed_host c5wcontent).2 "kivsa" (by decide)
      ⟨"x", 50, "kivsa"⟩ (by decide)⟩

/-! ### Claim C5: counterexample input -/

def c5input : List (String × String) :=
  [("kivsa", "1 nakhash a 2 p t try c ok 50 1 1 x g_o")]

/-- C5: an Observation produced from the file `kivsa/data` is tagged with the
`host` field parsed from the line (`nakhash`), not with the identifier of the
directory it was read from (`kivsa`). -/
theorem c5_counterexample :
    allObsOf c5input = [⟨"x", 50, "nakhash"⟩] ∧
    ("nakhash" : String) ≠ "kivsa" ∧
    mlookup2 (dataOf c5input) "x" "kivsa" = none := by decide

/-! ### JavaScript numbers

The script's arithmetic (products, `Math.pow`, divisions, `Math.min`,
`toFixed`) runs on JavaScript numbers.  They are idealised as real numbers
extended with the two special values the script actually produces — `NaN`
(from arithmetic on a missing `byMachine[m]`, i.e. `undefined`) and
`Infinity` (from `Math.min()` of an empty spread).  All ordinary values the
script manipulates are nonnegative (cycle counts and quantities derived from
them), and the case splits below implement the JavaScript semantics on that
nonnegative fragment. -/

inductive JSNum where
  | nan : JSNum
  | inf : JSNum
  | val : ℝ → JSNum

open Classical in
/-- JavaScript multiplication (`NaN` poisons, `Infinity * 0 = NaN`). -/
noncomputable def jsMul : JSNum → JSNum → JSNum
  | JSNum.nan, _ => JSNum.nan
  | _, JSNum.nan => JSNum.nan
  | JSNum.inf, JSNum.inf => JSNum.inf
  | JSNum.inf, JSNum.val b => if b = 0 then JSNum.nan else JSNum.inf
  | JSNum.val a, JSNum.inf => if a = 0 then JSNum.nan else JSNum.inf
  | JSNum.val a, JSNum.val b => JSNum.val (a * b)

open Classical in
/-- JavaScript division on the nonnegative fragment (`x / 0 = Infinity` for
`x > 0`, `0 / 0 = NaN`). -/
noncomputable def jsDiv : JSNum → JSNum → JSNum
  | JSNum.nan, _ => JSNum.nan
  | _, JSNum.nan => JSNum.nan
  | JSNum.inf, JSNum.inf => JSNum.nan
  | JSNum.inf, JSNum.val _ => JSNum.inf
  | JSNum.val _, JSNum.inf => JSNum.val 0
  | JSNum.val a, JSNum.val b =>
    if b = 0 then (if a = 0 then JSNum.nan else JSNum.inf) else JSNum.val (a / b)

open Classical in
/-- `Math.pow` on the nonnegative fragment; on real values it is the real
power `Real.rpow` (`Math.pow(NaN, 0) = 1` as in JavaScript). -/
noncomputable def jsPow : JSNum → JSNum → JSNum
  | _, JSNum.nan => JSNum.nan
  | JSNum.nan, JSNum.val e => if e = 0 then JSNum.val 1 else JSNum.nan
  | JSNum.nan, JSNum.inf => JSNum.nan
  | JSNum.inf, JSNum.val e =>
    if e = 0 then JSNum.val 1 else if 0 < e then JSNum.inf else JSNum.val 0
  | JSNum.inf, JSNum.inf => JSNum.inf
  | JSNum.val a, JSNum.inf =>
    if a = 1 then JSNum.nan else if 1 < a then JSNum.inf else JSNum.val 0
  | JSNum.val a, JSNum.val e => JSNum.val (Real.rpow a e)

open Classical in
/-- Binary `Math.min` (`NaN` poisons, `Infinity` is the unit). -/
noncomputable def jsMin : JSNum → JSNum → JSNum
  | JSNum.nan, _ => JSNum.nan
  | _, JSNum.nan => JSNum.nan
  | JSNum.inf, x => x
  | x, JSNum.inf => x
  | JSNum.val a, JSNum.val b => JSNum.val (min a b)

/-- `Math.min(...list)`; the empty spread gives `Infinity`. -/
noncomputable def jsMinList (l : List JSNum) : JSNum := l.foldr jsMin JSNum.inf

open Classical in
/-- JavaScript `==` on numbers (`NaN` equals nothing, also used with an
`undefined` operand modelled as `nan`, which compares unequal as well). -/
noncomputable def jsEqB : JSNum → JSNum → Bool
  | JSNum.nan, _ => false
  | _, JSNum.nan => false
  | JSNum.inf, JSNum.inf => true
  | JSNum.inf, JSNum.val _ => false
  | JSNum.val _, JSNum.inf => false
  | JSNum.val a, JSNum.val b => decide (a = b)

/-- A possibly-missing matrix entry as the number JavaScript arithmetic sees:
a present cycle count, or `undefined`, which behaves as `NaN` in `*`, `/`,
`Math.min` and compares false under `==`. -/
noncomputable def jsOfOpt : Option ℕ → JSNum
  | none => JSNum.nan
  | some n => JSNum.val (n : ℝ)

/-- Two-digit zero padding of a remainder. -/
def pad2 (k : ℤ) : String := if k < 10 then "0" ++ toString k else toString k

open Classical in
/-- `x.toFixed(2)` idealised over the reals: the integer closest to `100 * x`
(ties to the larger, as the JavaScript specification prescribes), printed with
two decimals; `NaN` and `Infinity` print as in JavaScript. -/
noncomputable def jsToFixed2 : JSNum → String
  | JSNum.nan => "NaN"
  | JSNum.inf => "Infinity"
  | JSNum.val r => toString (⌊r * 100 + 1 / 2⌋ / 100) ++ "." ++ pad2 (⌊r * 100 + 1 / 2⌋ % 100)

open Classical in
/-- `x.toFixed(0)`: nearest integer, ties to the larger. -/
noncomputable def jsToFixed0 : JSNum → String
  | JSNum.nan => "NaN"
  | JSNum.inf => "Infinity"
  | JSNum.val r => toString ⌊r + 1 / 2⌋

/-- `String.prototype.padStart` with spaces. -/
def padStartS (s : String) (n : ℕ) : String :=
  (List.replicate (n - s.length) ' ').asString ++ s

/-- `String.prototype.padEnd` with spaces. -/
def padEndS (s : String) (n : ℕ) : String :=
  s ++ (List.replicate (n - s.length) ' ').asString

/-! ### Static configuration

The script closes over module-level constants (`implOrder`, `implMap`,
`machineOrder`, `machinenameMap`, `CAPTION_MAP`, `languageMap`); the embedding
passes them explicitly as one configuration record, instantiated below with
the script's actual values. -/

structure ImplMeta where
  name : String
  field : String
deriving DecidableEq, Repr

structure Cfg where
  implOrder : List (List String)
  implMap : List (String × ImplMeta)
  machineOrder : List String
  machinenameMap : List (String × String)
  captionMap : List (String × String)
  languageMap : List (String × String)

/-- Padding constants of the script. -/
def PAD_CYC : ℕ := 18

def PAD_NAME : ℕ := 35

def PAD_FIELD : ℕ := 8

def ROW_DESCRIPTION : String := padEndS "Implementation" PAD_NAME

def FIELD_DESCRIPTION : String := padStartS "Lang." PAD_FIELD

def MEAN_DESCRIPTION : String := padStartS "G.M." PAD_CYC

/-- The script's `implOrder`: one Section (grouping) per inner list. -/
def implOrderA : List (List String) :=
  [["crypto_scalarmult/curve25519/sandy2x",
    "crypto_scalarmult/curve25519/amd64-64",
    "crypto_scalarmult/curve25519/amd64-51",
    "crypto_scalarmult/curve25519/donna",
    "crypto_scalarmult/curve25519/donna_c64",
    "crypto_scalarmult/curve25519/openssl-c-ots",
    "crypto_scalarmult/curve25519/openssl-ots",
    "crypto_scalarmult/curve25519/openssl-fe64-ots",
    "crypto_scalarmult/curve25519/openssl-fe51-cryptopt",
    "crypto_scalarmult/curve25519/openssl-fe64-cryptopt",
    "crypto_scalarmult/curve25519/openssl-fe64-fiat",
    "crypto_scalarmult/curve25519/everest-hacl-51",
    "crypto_scalarmult/curve25519/everest-hacl-64",
    "crypto_scalarmult/curve25519/everest-hacl-lib-51",
    "crypto_scalarmult/curve25519/everest-hacl-lib-64",
    "crypto_scalarmult/curve25519/openssl-fe64-w-armdazh"],
   ["crypto_scalarmult/secp256k1/libsecp256k1-ots",
    "crypto_scalarmult/secp256k1/libsecp256k1-c-ots",
    "crypto_scalarmult/secp256k1/libsecp256k1-ots-c-dettman",
    "crypto_scalarmult/secp256k1/libsecp256k1-ots-cryptopt-dettman",
    "crypto_scalarmult/secp256k1/libsecp256k1-ots-cryptopt-bcc"]]

/-- The script's `implMap` display-metadata table. -/
def implMapA : List (String × ImplMeta) :=
  [("crypto_scalarmult/curve25519/sandy2x", ⟨"sandy2x~\\cite\x7bsandy2x\x7d", "av"⟩),
   ("crypto_scalarmult/curve25519/amd64-51", ⟨"amd64-51~\\cite\x7bChen14\x7d", "a64"⟩),
   ("crypto_scalarmult/curve25519/amd64-64", ⟨"amd64-64~\\cite\x7bChen14\x7d", "a64"⟩),
   ("crypto_scalarmult/curve25519/donna", ⟨"donna~\\cite\x7bcurve25519-donna\x7d", "av"⟩),
   ("crypto_scalarmult/curve25519/donna_c64", ⟨"donna-c64~\\cite\x7bcurve25519-donna\x7d", "c51"⟩),
   ("crypto_scalarmult/curve25519/openssl-c-ots", ⟨"(1) OSSL ots~\\cite\x7bopenssl\x7d", "c51"⟩),
   ("crypto_scalarmult/curve25519/openssl-ots", ⟨"(2) OSSL fe-51 ots~\\cite\x7bopenssl\x7d", "a51"⟩),
   ("crypto_scalarmult/curve25519/openssl-fe64-ots", ⟨"(3) OSSL fe-64 ots~\\cite\x7bopenssl\x7d", "a64"⟩),
   ("crypto_scalarmult/curve25519/openssl-fe51-cryptopt", ⟨"(4) OSSL fe-51+\\textbf\\cryptopt", "a51"⟩),
   ("crypto_scalarmult/curve25519/openssl-fe64-cryptopt", ⟨"(5) OSSL fe-64+\\textbf\\cryptopt (mul only)", "a64"⟩),
   ("crypto_scalarmult/curve25519/openssl-fe64-fiat", ⟨"(6) OSSL fe-64+Fiat-C", "c64"⟩),
   ("crypto_scalarmult/curve25519/openssl-fe64-cryptopt-eql", ⟨"OSSL 64+\\textbf\\cryptopt(mul as sq)", "a64"⟩),
   ("crypto_scalarmult/curve25519/openssl-fe64-fiat-eql", ⟨"OSSL 64+Fiat-C (mul as sq)", "c64"⟩),
   ("crypto_scalarmult/curve25519/everest-hacl-51", ⟨"(7) HACL*~fe-51~\\cite\x7bhacl\x7d", "c51"⟩),
   ("crypto_scalarmult/curve25519/everest-hacl-64", ⟨"(8) HACL*~fe-64~\\cite\x7bhacl\x7d", "a64"⟩),
   ("crypto_scalarmult/curve25519/everest-hacl-lib-51", ⟨"(9) HACL*~fe-51~\\cite\x7bhacl\x7d", "bin"⟩),
   ("crypto_scalarmult/curve25519/everest-hacl-lib-64", ⟨"(10) HACL*~fe-64~\\cite\x7bhacl\x7d", "bin"⟩),
   ("crypto_scalarmult/curve25519/openssl-fe64-w-armdazh", ⟨"(11) OSSL fe-64 + (RFC7748~\\cite\x7boliveira_sac2017\x7d)", "a64"⟩),
   ("crypto_scalarmult/secp256k1/openssl-ots", ⟨"OSSL ots", "c port"⟩),
   ("crypto_scalarmult/secp256k1/openssl-cryptopt", ⟨"OSSL+\\textbf\\cryptopt", "sa"⟩),
   ("crypto_scalarmult/secp256k1/libsecp256k1-ots", ⟨"libsecp256k1~\\cite\x7blibsecp256k1\x7d", "sa"⟩),
   ("crypto_scalarmult/secp256k1/libsecp256k1-c-ots", ⟨"libsecp256k1~\\cite\x7blibsecp256k1\x7d", "c52"⟩),
   ("crypto_scalarmult/secp256k1/libsecp256k1-ots-c-dettman", ⟨"libsecp256k1+Dettman (mul only)", "c52"⟩),
   ("crypto_scalarmult/secp256k1/libsecp256k1-ots-cryptopt-dettman", ⟨"libsecp256k1+\\textbf\\cryptopt (Dettman) (mul only)", "sa"⟩),
   ("crypto_scalarmult/secp256k1/libsecp256k1-ots-cryptopt-bcc", ⟨"libsecp256k1+\\textbf\\cryptopt (CS2)", "sa"⟩)]

/-- The script's `machinenameMap`. -/
def machinenameMapA : List (String × String) :=
  [("kivsa", "1900X"), ("nakhash", "5800X"), ("aljamus", "5950X"), ("nuc", "i7 6G"),
   ("akrav", "i7 10G"), ("akavish", "i9 10G"), ("pil", "i7 11G"), ("arnevet", "i9 12G")]

/-- The script's `CAPTION_MAP`. -/
def captionMapA : List (String × String) :=
  [("curve25519", "Curve25519"), ("p256", "P-256"), ("p384", "P-384"),
   ("secp256k1", "secp256k1")]

/-- The script's `languageMap`. -/
def languageMapA : List (String × String) :=
  [("c port", "C"), ("c", "C"), ("c64", "C"), ("c52", "C"), ("c51", "C"),
   ("av", "asm-v"), ("a64", "asm"), ("a51", "asm"), ("sa", "asm")]

/-- The script's actual configuration. -/
def cfgA : Cfg := ⟨implOrderA, implMapA, machineOrder, machinenameMapA, captionMapA, languageMapA⟩

/-- `fieldToStr` of the script: unknown implementations get a leading dash,
known field tags resolve through `languageMap`, unmapped tags print verbatim. -/
def fieldToStr (cfg : Cfg) (implName : String) : String :=
  match lookupA cfg.implMap implName with
  | none => "-" ++ implName
  | some meta =>
    match lookupA cfg.languageMap meta.field with
    | some lang => lang
    | none => meta.field

/-- One element of the mapped-and-filtered section data `d`. -/
structure RowD where
  name : String
  iname : String
  field : String
  byMachine : List (String × ℕ)
deriving DecidableEq, Repr

instance exceptDecEq {ε α : Type} [DecidableEq ε] [DecidableEq α] :
    DecidableEq (Except ε α) := fun a b =>
  match a, b with
  | Except.error e1, Except.error e2 =>
    if h : e1 = e2 then isTrue (by rw [h])
    else isFalse (fun hc => h (Except.error.inj hc))
  | Except.ok x, Except.ok y =>
    if h : x = y then isTrue (by rw [h])
    else isFalse (fun hc => h (Except.ok.inj hc))
  | Except.error _, Except.ok _ => isFalse (fun hc => Except.noConfusion hc)
  | Except.ok _, Except.error _ => isFalse (fun hc => Except.noConfusion hc)

/-- The sequential `.map` of the script with the `throw` for implementations
missing from `implMap`: the first missing identifier aborts (JavaScript
evaluates the callback left to right and the exception propagates). -/
def mapRows (cfg : Cfg) (data : Matrix) :
    List String → Except String (List (String × ImplMeta × Option (List (String × ℕ))))
  | [] => Except.ok []
  | ii :: t =>
    match lookupA cfg.implMap ii with
    | none => Except.error (ii ++ " not in impl")
    | some meta => do
      let rest ← mapRows cfg data t
      Except.ok ((ii, meta, mlookup data ii) :: rest)

/-- The mapped-and-filtered section data `d`: throws for implementations
missing from `implMap` (before any filtering), then keeps exactly those with
an Aggregate Matrix entry.  The `name` uses the metadata entry (the `?? `
fallback in the script is unreachable once the presence check has passed). -/
def sectionD (cfg : Cfg) (data : Matrix) (implementations : List String) :
    Except String (List RowD) := do
  let mapped ← mapRows cfg data implementations
  Except.ok (mapped.filterMap (fun e =>
    match e.2.2 with
    | some bm => some ⟨e.2.1.name, e.1, fieldToStr cfg e.1, bm⟩
    | none => none))

/-- The geometric-mean value of one row: the product of its per-machine
values over the fixed machine ordering (`reduce` from 1; a missing machine is
`undefined` and poisons the product to `NaN`), raised to the power
`1 / machineOrder.length`. -/
noncomputable def meanOfRow (cfg : Cfg) (rrow : RowD) : JSNum :=
  jsPow
    (cfg.machineOrder.foldl
      (fun a m => jsMul a (jsOfOpt (lookupA rrow.byMachine m))) (JSNum.val 1))
    (JSNum.val ((cfg.machineOrder.length : ℝ))⁻¹)

/-- `meanByImplementation`: the summary value keyed by implementation. -/
noncomputable def meanByImplementation (cfg : Cfg) (d : List RowD) : List (String × JSNum) :=
  d.map (fun rrow => (rrow.iname, meanOfRow cfg rrow))

/-- `smallestMean = Math.min(...Object.values(meanByImplementation))`. -/
noncomputable def smallestMean (cfg : Cfg) (d : List RowD) : JSNum :=
  jsMinList ((meanByImplementation cfg d).map Prod.snd)

/-- `smallestImplByMachine`: per machine, the minimum of the section's values
(`byMachine[machine]!` is `undefined` for a missing machine and turns the
minimum into `NaN`). -/
noncomputable def smallestImplByMachine (cfg : Cfg) (d : List RowD) : List (String × JSNum) :=
  cfg.machineOrder.map (fun m =>
    (m, jsMinList (d.map (fun rrow => jsOfOpt (lookupA rrow.byMachine m)))))

open Classical in
/-- `printCycles`: emphasise the value iff it equals the passed minimum
(JavaScript `==`), annotate with the ratio to that minimum to two decimals,
and scale the shown count by the static `FACTOR = 1000` (the script's other
branch is dead code under `FACTOR` being the literal 1000). -/
noncomputable def printCycles (c small : JSNum) : String :=
  let isSmallest := jsEqB c small
  let ratStr := "\x7b\\tiny (" ++ jsToFixed2 (jsDiv c small) ++ "x)\x7d"
  let cyclesStr := jsToFixed0 (jsDiv c (JSNum.val 1000)) ++ "k"
  let mm :=
    if isSmallest then "\\textbf\x7b" ++ cyclesStr ++ " " ++ ratStr ++ "\x7d"
    else cyclesStr ++ " " ++ ratStr
  padStartS mm PAD_CYC

/-- One data row of a section: name, language label, one cell per machine
against that machine's section minimum, and the geometric-mean cell against
the section's best mean. -/
noncomputable def rowLine (cfg : Cfg) (d : List RowD) (rrow : RowD) : String :=
  (String.intercalate " & "
    (["", padEndS rrow.name PAD_NAME, padStartS rrow.field PAD_FIELD] ++
     cfg.machineOrder.map (fun machine =>
       printCycles (jsOfOpt (lookupA rrow.byMachine machine))
         ((lookupA (smallestImplByMachine cfg d) machine).getD JSNum.nan)) ++
     [printCycles ((lookupA (meanByImplementation cfg d) rrow.iname).getD JSNum.nan)
        (smallestMean cfg d)])) ++ " \\\\"

/-- Splitting a character list at every occurrence of a separator
(JavaScript `String.prototype.split` with a one-character separator). -/
def splitCh (sep : Char) : List Char → List (List Char)
  | [] => [[]]
  | c :: t =>
    if c = sep then [] :: splitCh sep t
    else
      match splitCh sep t with
      | [] => [[c]]
      | hh :: r => (c :: hh) :: r

/-- `CAPTION_MAP[implementations[0].split("/")[1]].heading`: `none` when the
section is empty, the first identifier has no second path segment, or the
segment is not in `CAPTION_MAP` — the script throws a `TypeError` in each of
these cases. -/
def headingOf (cfg : Cfg) (implementations : List String) : Option String :=
  implementations.head?.bind (fun i0 =>
    (((splitCh '/' i0.toList).map List.asString).get? 1).bind
      (fun ff => lookupA cfg.captionMap ff))

/-- The rotated section heading carrying the row span
(`\multirow{N}{*}{\rotatebox[origin=c]{90}{\centering H}}`); the span is the
CONFIGURED implementation count of the section. -/
def multirowLine (span : ℕ) (heading : String) : String :=
  "\\multirow\x7b" ++ toString span ++
    "\x7d\x7b*\x7d\x7b\\rotatebox[origin=c]\x7b90\x7d\x7b\\centering " ++
    heading ++ "\x7d\x7d"

/-- One section block: rule, rotated heading, one row per implementation kept
by `sectionD`. -/
noncomputable def sectionBlock (cfg : Cfg) (data : Matrix) (implementations : List String) :
    Except String String :=
  match headingOf cfg implementations with
  | none => Except.error "TypeError: cannot read heading of undefined"
  | some heading => do
    let d ← sectionD cfg data implementations
    Except.ok (String.intercalate "\n"
      ("\\midrule" ::
        multirowLine implementations.length heading ::
        d.map (rowLine cfg d)))

/-- The header block of `genBarTable` (column spec, top rule, machine display
names); a machine missing from `machinenameMap` would make the script throw
on `undefined.padStart`. -/
def machineNames (cfg : Cfg) : List String → Except String (List String)
  | [] => Except.ok []
  | m :: t =>
    match lookupA cfg.machinenameMap m with
    | none => Except.error "TypeError: cannot read padStart of undefined"
    | some nm => do
      let rest ← machineNames cfg t
      Except.ok (padStartS nm PAD_CYC :: rest)

def headOf (cfg : Cfg) : Except String String := do
  let names ← machineNames cfg cfg.machineOrder
  Except.ok (String.intercalate "\n"
    ["\\begin\x7btabular\x7d\x7bcll" ++
       String.join (cfg.machineOrder.map (fun _ => "r")) ++ "r\x7d",
     "\\toprule",
     String.intercalate " & "
       (["", ROW_DESCRIPTION, FIELD_DESCRIPTION] ++ names ++ [MEAN_DESCRIPTION]) ++
       "\\\\",
     ""])

/-- The footer of `genBarTable`. -/
def bottomStr : String :=
  String.intercalate "\n" ["", "\\bottomrule", "\\end\x7btabular\x7d", "\\vspace\x7b2mm\x7d "]

/-- `genBarTable` with the configuration passed explicitly: header, one block
per configured section joined by blank lines, footer.  An exception anywhere
aborts the whole computation — the string is built completely before anything
is printed. -/
noncomputable def blocksOf (cfg : Cfg) (data : Matrix) :
    List (List String) → Except String (List String)
  | [] => Except.ok []
  | impls :: t => do
    let b ← sectionBlock cfg data impls
    let rest ← blocksOf cfg data t
    Except.ok (b :: rest)

noncomputable def genBarTableWith (cfg : Cfg) (data : Matrix) : Except String String := do
  let hd ← headOf cfg
  let blocks ← blocksOf cfg data cfg.implOrder
  Except.ok (hd ++ String.intercalate "\n\n" blocks ++ bottomStr)

def NOTE : String :=
  String.intercalate "\n"
    ["", "Note:", "G.M. stands for geometric mean;", "ots stands for off-the-shelf;",
     "asm means assembly;", "-v indicates the use of vector instructions;",
     "bin means precompiled.", "",
     "\\cite\x7bhacl\x7d uses parallelized field arithmetic; ",
     "All libsecp256k1 implementations are unsaturated"]

def CAPTION : String :=
  "Cost of scalar multiplication (in cycles) of different implementations benchmarking on different machines."

def LABEL : String := "fulltable2"

def tableStart (cap lab : String) : String :=
  String.intercalate "\n"
    ["\\begin\x7bsidewaystable\x7d[h]", "\\vspace\x7b20em\x7d", "\\centering", "",
     "\\caption\x7b" ++ cap ++ "\x7d", "\\label\x7bf:" ++ lab ++ "\x7d", "\\tiny"]

def TABLE_END : String := NOTE ++ "\n\\end\x7bsidewaystable\x7d\n"

/-- The three `console.log` calls of the script: the table preamble is printed
first; if `genBarTable` throws, the process dies before printing the table or
the footer, so the emitted output is the preamble alone, paired with the
error. -/
noncomputable def runMain (cfg : Cfg) (data : Matrix) : List String × Option String :=
  match genBarTableWith cfg data with
  | Except.error e => ([tableStart CAPTION LABEL], some e)
  | Except.ok t => ([tableStart CAPTION LABEL, t, TABLE_END], none)

/-! ### Error propagation in the renderer (claim C7) -/

theorem mapRows_error (cfg : Cfg) (data : Matrix) (impls : List String) (ii : String)
    (hmem : ii ∈ impls) (hmiss : lookupA cfg.implMap ii = none) :
    ∃ e, mapRows cfg data impls = Except.error e := by
  induction impls with
  | nil => cases hmem
  | cons jj t ih =>
    rcases List.mem_cons.mp hmem with h1 | h1
    · subst h1
      refine ⟨ii ++ " not in impl", ?_⟩
      unfold mapRows
      rw [hmiss]
    · cases hjj : lookupA cfg.implMap jj with
      | none =>
        refine ⟨jj ++ " not in impl", ?_⟩
        unfold mapRows
        rw [hjj]
      | some meta =>
        obtain ⟨e, he⟩ := ih h1
        refine ⟨e, ?_⟩
        unfold mapRows
        rw [hjj, he]
        rfl

theorem sectionD_error (cfg : Cfg) (data : Matrix) (impls : List String) (e : String)
    (h : mapRows cfg data impls = Except.error e) :
    sectionD cfg data impls = Except.error e := by
  unfold sectionD
  rw [h]
  rfl

theorem sectionBlock_error (cfg : Cfg) (data : Matrix) (impls : List String) (ii : String)
    (hmem : ii ∈ impls) (hmiss : lookupA cfg.implMap ii = none) :
    ∃ e, sectionBlock cfg data impls = Except.error e := by
  cases hh : headingOf cfg impls with
  | none =>
    refine ⟨"TypeError: cannot read heading of undefined", ?_⟩
    unfold sectionBlock
    rw [hh]
  | some heading =>
    obtain ⟨e, he⟩ := mapRows_error cfg data impls ii hmem hmiss
    refine ⟨e, ?_⟩
    unfold sectionBlock
    rw [hh, sectionD_error cfg data impls e he]
    rfl

theorem blocksOf_error (cfg : Cfg) (data : Matrix) (secs : List (List String))
    (sec : List String) (hmem : sec ∈ secs)
    (hsec : ∃ e, sectionBlock cfg data sec = Except.error e) :
    ∃ e, blocksOf cfg data secs = Except.error e := by
  induction secs with
  | nil => cases hmem
  | cons s t ih =>
    rcases List.mem_cons.mp hmem with h1 | h1
    · subst h1
      obtain ⟨e, he⟩ := hsec
      refine ⟨e, ?_⟩
      unfold blocksOf
      rw [he]
      rfl
    · cases hs : sectionBlock cfg data s with
      | error e =>
        refine ⟨e, ?_⟩
        unfold blocksOf
        rw [hs]
        rfl
      | ok b =>
        obtain ⟨e, he⟩ := ih h1
        refine ⟨e, ?_⟩
        unfold blocksOf
        rw [hs, he]
        rfl

/-- C7: an implementation identifier configured in some Section but absent
from the display-metadata table makes `genBarTable` throw, so the run dies
having emitted only the `table_start` preamble — no tabular markup, no header
block, no row of any section reaches standard output. -/
theorem c7_missing_impl_fatal (cfg : Cfg) (data : Matrix)
    (h : ∃ sec ∈ cfg.implOrder, ∃ ii ∈ sec, lookupA cfg.implMap ii = none) :
    (∃ e, genBarTableWith cfg data = Except.error e) ∧
    (runMain cfg data).1 = [tableStart CAPTION LABEL] := by
  obtain ⟨sec, hsec, ii, hii, hmiss⟩ := h
  have hg : ∃ e, genBarTableWith cfg data = Except.error e := by
    cases hhd : headOf cfg with
    | error e =>
      refine ⟨e, ?_⟩
      unfold genBarTableWith
      rw [hhd]
      rfl
    | ok hd =>
      obtain ⟨e, he⟩ := blocksOf_error cfg data cfg.implOrder sec hsec
        (sectionBlock_error cfg data sec ii hii hmiss)
      refine ⟨e, ?_⟩
      unfold genBarTableWith
      rw [hhd, he]
      rfl
  refine ⟨hg, ?_⟩
  obtain ⟨e, he⟩ := hg
  unfold runMain
  rw [he]

def c7wcfg : Cfg :=
  { cfgA with implOrder := [["crypto_scalarmult/curve25519/sandy2x",
                             "crypto_scalarmult/curve25519/not-in-the-table"]] }

theorem c7_missing_impl_fatal_witness :
    (∃ sec ∈ c7wcfg.implOrder, ∃ ii ∈ sec, lookupA c7wcfg.implMap ii = none) ∧
    ((∃ e, genBarTableWith c7wcfg [] = Except.error e) ∧
      (runMain c7wcfg []).1 = [tableStart CAPTION LABEL]) :=
  ⟨⟨["crypto_scalarmult/curve25519/sandy2x", "crypto_scalarmult/curve25519/not-in-the-table"],
     by decide, "crypto_scalarmult/curve25519/not-in-the-table", by decide, by decide⟩,
   c7_missing_impl_fatal c7wcfg []
     ⟨["crypto_scalarmult/curve25519/sandy2x", "crypto_scalarmult/curve25519/not-in-the-table"],
      by decide, "crypto_scalarmult/curve25519/not-in-the-table", by decide, by decide⟩⟩

/-! ### Section data as filter-then-render (claim C8) -/

/-- The display metadata of a known implementation. -/
def metaOf (cfg : Cfg) (ii : String) : ImplMeta :=
  (lookupA cfg.implMap ii).getD ⟨"", ""⟩

/-- The row `sectionD` builds for one implementation that is present in the
metadata table and the matrix (junk row otherwise — such an implementation
never survives the checks). -/
def rowFor (cfg : Cfg) (data : Matrix) (ii : String) : RowD :=
  match lookupA cfg.implMap ii, mlookup data ii with
  | some meta, some bm => ⟨meta.name, ii, fieldToStr cfg ii, bm⟩
  | _, _ => ⟨"", ii, "", []⟩

theorem rowFor_iname (cfg : Cfg) (data : Matrix) (ii : String) :
    (rowFor cfg data ii).iname = ii := by
  unfold rowFor
  split <;> rfl

theorem mapRows_ok (cfg : Cfg) (data : Matrix) (impls : List String)
    (himpl : ∀ ii ∈ impls, (lookupA cfg.implMap ii).isSome) :
    mapRows cfg data impls =
      Except.ok (impls.map (fun ii => (ii, metaOf cfg ii, mlookup data ii))) := by
  induction impls with
  | nil => rfl
  | cons ii t ih =>
    have hii := himpl ii (List.mem_cons_self _ _)
    cases hm : lookupA cfg.implMap ii with
    | none => rw [hm] at hii; cases hii
    | some meta =>
      unfold mapRows
      rw [hm, ih (fun jj hjj => himpl jj (List.mem_cons_of_mem _ hjj))]
      show Except.ok ((ii, meta, mlookup data ii) :: _) = _
      rw [List.map_cons]
      have : metaOf cfg ii = meta := by unfold metaOf; rw [hm]; rfl
      rw [this]

/-- C8: with every configured implementation present in the metadata table,
the section data is exactly the configured list filtered to implementations
that have an Aggregate Matrix entry, each rendered by `rowFor`; an
implementation without a matrix entry yields no row at all — in particular no
row of the section carries its identifier. -/
theorem c8_absent_impls_omitted (cfg : Cfg) (data : Matrix) (impls : List String)
    (himpl : ∀ ii ∈ impls, (lookupA cfg.implMap ii).isSome) :
    sectionD cfg data impls =
      Except.ok ((impls.filter (fun ii => (mlookup data ii).isSome)).map (rowFor cfg data)) ∧
    (∀ d, sectionD cfg data impls = Except.ok d →
      ∀ ii ∈ impls, mlookup data ii = none → ∀ rrow ∈ d, rrow.iname ≠ ii) := by
  have heq : sectionD cfg data impls =
      Except.ok ((impls.filter (fun ii => (mlookup data ii).isSome)).map (rowFor cfg data)) := by
    unfold sectionD
    rw [mapRows_ok cfg data impls himpl]
    show Except.ok _ = _
    congr 1
    induction impls with
    | nil => rfl
    | cons ii t ih =>
      have hii := himpl ii (List.mem_cons_self _ _)
      rw [List.map_cons, List.filterMap_cons, List.filter_cons]
      cases hmd : mlookup data ii with
      | none =>
        simp only [hmd, Option.isSome_none, Bool.false_eq_true, if_false]
        exact ih (fun jj hjj => himpl jj (List.mem_cons_of_mem _ hjj))
      | some bm =>
        simp only [hmd, Option.isSome_some, if_true]
        rw [List.map_cons]
        have hrow : rowFor cfg data ii = ⟨(metaOf cfg ii).name, ii, fieldToStr cfg ii, bm⟩ := by
          cases hm : lookupA cfg.implMap ii with
          | none => rw [hm] at hii; cases hii
          | some meta =>
            unfold rowFor
            rw [hm, hmd]
            have : metaOf cfg ii = meta := by unfold metaOf; rw [hm]; rfl
            rw [this]
        rw [hrow]
        exact congrArg (List.cons _) (ih (fun jj hjj => himpl jj (List.mem_cons_of_mem _ hjj)))
  refine ⟨heq, fun d hd ii hii hnone rrow hrrow => ?_⟩
  rw [heq] at hd
  have hdl := Except.ok.inj hd
  rw [← hdl] at hrrow
  obtain ⟨jj, hjf, hje⟩ := List.mem_map.mp hrrow
  intro hni
  have hjj : jj = ii := by
    rw [← rowFor_iname cfg data jj, hje, hni]
  have := List.of_mem_filter hjf
  rw [hjj, hnone] at this
  cases this

def c8wdata : Matrix := [("crypto_scalarmult/secp256k1/libsecp256k1-ots", [("kivsa", 700)])]

def c8wsec : List String :=
  ["crypto_scalarmult/secp256k1/libsecp256k1-ots",
   "crypto_scalarmult/secp256k1/libsecp256k1-c-ots"]

theorem c8_absent_impls_omitted_witness :
    (∀ ii ∈ c8wsec, (lookupA cfgA.implMap ii).isSome) ∧
    (sectionD cfgA c8wdata c8wsec =
        Except.ok ((c8wsec.filter (fun ii => (mlookup c8wdata ii).isSome)).map
          (rowFor cfgA c8wdata)) ∧
      (∀ d, sectionD cfgA c8wdata c8wsec = Except.ok d →
        ∀ ii ∈ c8wsec, mlookup c8wdata ii = none → ∀ rrow ∈ d, rrow.iname ≠ ii)) :=
  ⟨by decide, c8_absent_impls_omitted cfgA c8wdata c8wsec (by decide)⟩

/-! ### Section block structure (claim C9) -/

theorem sectionBlock_ok (cfg : Cfg) (data : Matrix) (impls : List String)
    (heading : String) (d : List RowD)
    (hh : headingOf cfg impls = some heading)
    (hd : sectionD cfg data impls = Except.ok d) :
    sectionBlock cfg data impls =
      Except.ok (String.intercalate "\n"
        ("\\midrule" :: multirowLine impls.length heading :: d.map (rowLine cfg d))) := by
  unfold sectionBlock
  rw [hh, hd]
  rfl

theorem mapRows_length (cfg : Cfg) (data : Matrix) (impls : List String)
    (mapped : List (String × ImplMeta × Option (List (String × ℕ))))
    (h : mapRows cfg data impls = Except.ok mapped) : mapped.length = impls.length := by
  induction impls generalizing mapped with
  | nil =>
    unfold mapRows at h
    rw [← Except.ok.inj h]
    rfl
  | cons ii t ih =>
    unfold mapRows at h
    cases hm : lookupA cfg.implMap ii with
    | none => rw [hm] at h; cases h
    | some meta =>
      rw [hm] at h
      cases hr : mapRows cfg data t with
      | error e => rw [hr] at h; cases h
      | ok rest =>
        rw [hr] at h
        have : mapped = (ii, meta, mlookup data ii) :: rest := (Except.ok.inj h).symm
        rw [this, List.length_cons, ih rest hr, List.length_cons]

theorem sectionD_length_le (cfg : Cfg) (data : Matrix) (impls : List String)
    (d : List RowD) (h : sectionD cfg data impls = Except.ok d) :
    d.length ≤ impls.length := by
  unfold sectionD at h
  cases hm : mapRows cfg data impls with
  | error e => rw [hm] at h; cases h
  | ok mapped =>
    rw [hm] at h
    have hd : d = mapped.filterMap _ := (Except.ok.inj h).symm
    rw [hd, ← mapRows_length cfg data impls mapped hm]
    exact List.length_filterMap_le _ _

/-- C9 (amended): each rendered Section carries exactly one rotated heading —
the block is the rule line, then the single `\multirow` heading line, then the
data rows — but the declared row span is the number of CONFIGURED
implementations of the Section (`implementations.length`), not the number of
rows actually rendered, which can be strictly smaller when an implementation
has no matrix entry. -/
theorem c9_section_heading_span (cfg : Cfg) (data : Matrix) (impls : List String)
    (heading : String) (d : List RowD)
    (hh : headingOf cfg impls = some heading)
    (hd : sectionD cfg data impls = Except.ok d) :
    sectionBlock cfg data impls =
      Except.ok (String.intercalate "\n"
        ("\\midrule" :: multirowLine impls.length heading :: d.map (rowLine cfg d))) ∧
    d.length ≤ impls.length :=
  ⟨sectionBlock_ok cfg data impls heading d hh hd,
   sectionD_length_le cfg data impls d hd⟩

def c9sec : List String :=
  ["crypto_scalarmult/curve25519/sandy2x", "crypto_scalarmult/curve25519/donna"]

def c9data : Matrix := [("crypto_scalarmult/curve25519/sandy2x", [("kivsa", 1000)])]

def c9d : List RowD :=
  [⟨"sandy2x~\\cite\x7bsandy2x\x7d", "crypto_scalarmult/curve25519/sandy2x", "asm-v",
    [("kivsa", 1000)]⟩]

/-- C9: the declared row span does NOT equal the number of rows the Section
actually renders: with two configured implementations of which only one has
data, the emitted heading spans 2 rows while the section renders 1 row. -/
theorem c9_counterexample :
    sectionBlock cfgA c9data c9sec =
      Except.ok (String.intercalate "\n"
        ("\\midrule" :: multirowLine c9sec.length "Curve25519" ::
          c9d.map (rowLine cfgA c9d))) ∧
    c9sec.length = 2 ∧ c9d.length = 1 ∧ (2 : ℕ) ≠ 1 :=
  ⟨sectionBlock_ok cfgA c9data c9sec "Curve25519" c9d (by decide) (by decide),
   rfl, rfl, by decide⟩

def c9data2sec : List String := ["crypto_scalarmult/secp256k1/libsecp256k1-ots"]

def c9data2 : Matrix := [("crypto_scalarmult/secp256k1/libsecp256k1-ots", [("kivsa", 700)])]

def c9d2 : List RowD :=
  [⟨"libsecp256k1~\\cite\x7blibsecp256k1\x7d", "crypto_scalarmult/secp256k1/libsecp256k1-ots",
    "asm", [("kivsa", 700)]⟩]

theorem c9_section_heading_span_witness :
    (headingOf cfgA c9data2sec = some "secp256k1" ∧
      sectionD cfgA c9data2 c9data2sec = Except.ok c9d2) ∧
    (sectionBlock cfgA c9data2 c9data2sec =
        Except.ok (String.intercalate "\n"
          ("\\midrule" :: multirowLine c9data2sec.length "secp256k1" ::
            c9d2.map (rowLine cfgA c9d2))) ∧
      c9d2.length ≤ c9data2sec.length) :=
  ⟨⟨by decide, by decide⟩,
   c9_section_heading_span cfgA c9data2 c9data2sec "secp256k1" c9d2 (by decide) (by decide)⟩

/-! ### Geometric-mean computation (claims C3, C4) -/

theorem jsMul_nan_left (x : JSNum) : jsMul JSNum.nan x = JSNum.nan := by
  cases x <;> rfl

theorem jsMul_nan_right (x : JSNum) : jsMul x JSNum.nan = JSNum.nan := by
  cases x <;> rfl

theorem foldl_jsMul_nan_acc (bm : List (String × ℕ)) (ms : List String) :
    ms.foldl (fun a m => jsMul a (jsOfOpt (lookupA bm m))) JSNum.nan = JSNum.nan := by
  induction ms with
  | nil => rfl
  | cons m t ih =>
    rw [List.foldl_cons]
    show t.foldl _ (jsMul JSNum.nan _) = JSNum.nan
    rw [jsMul_nan_left]
    exact ih

/-- A missing machine value poisons the whole product to `NaN`. -/
theorem foldl_jsMul_missing (bm : List (String × ℕ)) (ms : List String)
    (h : ∃ m ∈ ms, lookupA bm m = none) (a : JSNum) :
    ms.foldl (fun a m => jsMul a (jsOfOpt (lookupA bm m))) a = JSNum.nan := by
  induction ms generalizing a with
  | nil => obtain ⟨m, hm, _⟩ := h; cases hm
  | cons m t ih =>
    obtain ⟨m1, hm1, hnone⟩ := h
    rw [List.foldl_cons]
    rcases List.mem_cons.mp hm1 with he | he
    · subst he
      show t.foldl _ (jsMul a (jsOfOpt (lookupA bm m1))) = JSNum.nan
      rw [hnone]
      show t.foldl _ (jsMul a JSNum.nan) = JSNum.nan
      rw [jsMul_nan_right]
      exact foldl_jsMul_nan_acc bm t
    · exact ih ⟨m1, he, hnone⟩ _

/-- With full coverage the product is the real product of the values. -/
theorem foldl_jsMul_vals (bm : List (String × ℕ)) (ms : List String)
    (hcov : ∀ m ∈ ms, (lookupA bm m).isSome) : ∀ c : ℝ,
    ms.foldl (fun a m => jsMul a (jsOfOpt (lookupA bm m))) (JSNum.val c) =
      JSNum.val (c * (ms.map (fun m => (((lookupA bm m).getD 0 : ℕ) : ℝ))).prod) := by
  induction ms with
  | nil => intro c; rw [List.foldl_nil, List.map_nil, List.prod_nil, mul_one]
  | cons m t ih =>
    intro c
    have hm := hcov m (List.mem_cons_self _ _)
    cases hl : lookupA bm m with
    | none => rw [hl] at hm; cases hm
    | some v =>
      rw [List.foldl_cons]
      show t.foldl _ (jsMul (JSNum.val c) (jsOfOpt (lookupA bm m))) = _
      rw [hl]
      show t.foldl _ (JSNum.val (c * (v : ℝ))) = _
      rw [ih (fun m1 h1 => hcov m1 (List.mem_cons_of_mem _ h1)) (c * (v : ℝ)),
        List.map_cons, List.prod_cons, hl]
      show JSNum.val (c * (v : ℝ) * _) = JSNum.val (c * ((v : ℝ) * _))
      rw [mul_assoc]

def c3impl : String := "crypto_scalarmult/curve25519/sandy2x"

def c3row : RowD := ⟨"sandy2x~\\cite\x7bsandy2x\x7d", c3impl, "asm-v", [("kivsa", 1000)]⟩

def c3data : Matrix := [(c3impl, [("kivsa", 1000)])]

def c3sec : List String := [c3impl]

def c3d : List RowD := [c3row]

/-- C3 (code bug): for an implementation with a value for `kivsa` only, the
geometric-mean computation does NOT fail with an "incomplete data" condition:
`byMachine["nakhash"]` is `undefined`, the product becomes `NaN`, `Math.pow`
keeps it `NaN`, and the renderer still produces a section block — the
NaN summary value is silently rendered. -/
theorem c3_missing_host_gives_nan_summary :
    lookupA (meanByImplementation cfgA c3d) c3impl = some JSNum.nan ∧
    (∃ s, sectionBlock cfgA c3data c3sec = Except.ok s) := by
  constructor
  · have hfold : cfgA.machineOrder.foldl
        (fun a m => jsMul a (jsOfOpt (lookupA c3row.byMachine m))) (JSNum.val 1) =
        JSNum.nan :=
      foldl_jsMul_missing c3row.byMachine cfgA.machineOrder
        ⟨"nakhash", by decide, by decide⟩ _
    have hlen : cfgA.machineOrder.length = 8 := rfl
    have hpow : jsPow JSNum.nan (JSNum.val ((cfgA.machineOrder.length : ℝ))⁻¹) =
        JSNum.nan := by
      show (if ((cfgA.machineOrder.length : ℝ))⁻¹ = 0 then JSNum.val 1 else JSNum.nan) =
        JSNum.nan
      rw [if_neg]
      rw [hlen]
      norm_num
    have hmean : meanOfRow cfgA c3row = JSNum.nan := by
      unfold meanOfRow
      rw [hfold, hpow]
    show lookupA (c3d.map (fun rrow => (rrow.iname, meanOfRow cfgA rrow))) c3impl =
      some JSNum.nan
    rw [show c3d = [c3row] from rfl, List.map_cons, List.map_nil, hmean]
    rfl
  · exact ⟨_, sectionBlock_ok cfgA c3data c3sec "Curve25519" c3d (by decide) (by decide)⟩

theorem lookupA_map_pair {α : Type} (f : RowD → α) (d : List RowD) (rrow : RowD)
    (hr : rrow ∈ d) (hnd : (d.map RowD.iname).Nodup) :
    lookupA (d.map (fun r => (r.iname, f r))) rrow.iname = some (f rrow) := by
  have hkeys : ((d.map (fun r => (r.iname, f r))).map Prod.fst) = d.map RowD.iname := by
    rw [List.map_map]
    rfl
  exact lookupA_eq_of_mem _ (rrow.iname, f rrow) (by rw [hkeys]; exact hnd)
    (List.mem_map_of_mem _ hr)

def cfg4x : Cfg := ⟨[], [], ["kivsa", "nakhash"], [], [], []⟩

def row4x : RowD := ⟨"X", "a/b/x", "C", [("kivsa", 1000), ("nakhash", 4000)]⟩

/-- C4: with a recorded value for every host in the ordering, the summary
value of an implementation is the real number x ≥ 0 with x^N = product of the
N per-host values — the N-th root of the product, `Math.pow(product, 1/N)`;
in particular for two hosts with values 1000 and 4000 the mean is 2000. -/
theorem c4_geometric_mean (cfg : Cfg) (d : List RowD) (rrow : RowD)
    (hr : rrow ∈ d) (hnd : (d.map RowD.iname).Nodup)
    (hne : cfg.machineOrder ≠ [])
    (hcov : ∀ m ∈ cfg.machineOrder, (lookupA rrow.byMachine m).isSome) :
    (∃ x : ℝ,
      lookupA (meanByImplementation cfg d) rrow.iname = some (JSNum.val x) ∧
      0 ≤ x ∧
      x = ((cfg.machineOrder.map
            (fun m => (((lookupA rrow.byMachine m).getD 0 : ℕ) : ℝ))).prod) ^
          ((cfg.machineOrder.length : ℝ))⁻¹ ∧
      x ^ cfg.machineOrder.length =
        (cfg.machineOrder.map
          (fun m => (((lookupA rrow.byMachine m).getD 0 : ℕ) : ℝ))).prod) ∧
    meanOfRow cfg4x row4x = JSNum.val 2000 := by
  constructor
  · have hP : (0 : ℝ) ≤ (cfg.machineOrder.map
        (fun m => (((lookupA rrow.byMachine m).getD 0 : ℕ) : ℝ))).prod := by
      apply List.prod_nonneg
      intro a ha
      obtain ⟨m, _, he⟩ := List.mem_map.mp ha
      rw [← he]
      exact Nat.cast_nonneg _
    have hn0 : cfg.machineOrder.length ≠ 0 := by
      intro hc
      exact hne (List.length_eq_zero.mp hc)
    refine ⟨((cfg.machineOrder.map
        (fun m => (((lookupA rrow.byMachine m).getD 0 : ℕ) : ℝ))).prod) ^
          ((cfg.machineOrder.length : ℝ))⁻¹, ?_, ?_, rfl, ?_⟩
    · rw [show meanByImplementation cfg d = d.map (fun r => (r.iname, meanOfRow cfg r))
        from rfl]
      rw [lookupA_map_pair (meanOfRow cfg) d rrow hr hnd]
      unfold meanOfRow
      rw [foldl_jsMul_vals rrow.byMachine cfg.machineOrder hcov 1, one_mul]
      rfl
    · exact Real.rpow_nonneg hP _
    · exact Real.rpow_inv_natCast_pow hP hn0
  · have hfold : cfg4x.machineOrder.foldl
        (fun a m => jsMul a (jsOfOpt (lookupA row4x.byMachine m))) (JSNum.val 1) =
        JSNum.val ((1 : ℝ) * (((1000 : ℕ) : ℝ) * (((4000 : ℕ) : ℝ) * 1))) := by
      rw [foldl_jsMul_vals row4x.byMachine cfg4x.machineOrder (by decide) 1]
      rfl
    unfold meanOfRow
    rw [hfold]
    have hjs : ∀ (a e : ℝ), jsPow (JSNum.val a) (JSNum.val e) = JSNum.val (Real.rpow a e) :=
      fun a e => rfl
    rw [hjs]
    have h2 : ((cfg4x.machineOrder.length : ℝ)) = ((2 : ℕ) : ℝ) := by rfl
    have hv : ((1 : ℝ) * (((1000 : ℕ) : ℝ) * (((4000 : ℕ) : ℝ) * 1))) =
        (2000 : ℝ) ^ (2 : ℕ) := by push_cast; norm_num
    rw [h2, hv]
    exact congrArg JSNum.val (Real.pow_rpow_inv_natCast (by norm_num) (by norm_num))

theorem c4_geometric_mean_witness :
    (row4x ∈ [row4x] ∧ (([row4x] : List RowD).map RowD.iname).Nodup ∧
      cfg4x.machineOrder ≠ [] ∧
      (∀ m ∈ cfg4x.machineOrder, (lookupA row4x.byMachine m).isSome)) ∧
    ((∃ x : ℝ,
      lookupA (meanByImplementation cfg4x [row4x]) row4x.iname = some (JSNum.val x) ∧
      0 ≤ x ∧
      x = ((cfg4x.machineOrder.map
            (fun m => (((lookupA row4x.byMachine m).getD 0 : ℕ) : ℝ))).prod) ^
          ((cfg4x.machineOrder.length : ℝ))⁻¹ ∧
      x ^ cfg4x.machineOrder.length =
        (cfg4x.machineOrder.map
          (fun m => (((lookupA row4x.byMachine m).getD 0 : ℕ) : ℝ))).prod) ∧
    meanOfRow cfg4x row4x = JSNum.val 2000) :=
  ⟨⟨by decide, by decide, by decide, by decide⟩,
   c4_geometric_mean cfg4x [row4x] row4x (by decide) (by decide) (by decide) (by decide)⟩

/-! ### Output depends only on configured implementations (claim C10) -/

theorem mapRows_agree (cfg : Cfg) (d1 d2 : Matrix) (impls : List String)
    (h : ∀ ii ∈ impls, mlookup d1 ii = mlookup d2 ii) :
    mapRows cfg d1 impls = mapRows cfg d2 impls := by
  induction impls with
  | nil => rfl
  | cons ii t ih =>
    unfold mapRows
    rw [h ii (List.mem_cons_self _ _), ih (fun jj hjj => h jj (List.mem_cons_of_mem _ hjj))]

theorem sectionD_agree (cfg : Cfg) (d1 d2 : Matrix) (impls : List String)
    (h : ∀ ii ∈ impls, mlookup d1 ii = mlookup d2 ii) :
    sectionD cfg d1 impls = sectionD cfg d2 impls := by
  unfold sectionD
  rw [mapRows_agree cfg d1 d2 impls h]

theorem sectionBlock_agree (cfg : Cfg) (d1 d2 : Matrix) (impls : List String)
    (h : ∀ ii ∈ impls, mlookup d1 ii = mlookup d2 ii) :
    sectionBlock cfg d1 impls = sectionBlock cfg d2 impls := by
  unfold sectionBlock
  rw [sectionD_agree cfg d1 d2 impls h]

theorem blocksOf_agree (cfg : Cfg) (d1 d2 : Matrix) (secs : List (List String))
    (h : ∀ sec ∈ secs, ∀ ii ∈ sec, mlookup d1 ii = mlookup d2 ii) :
    blocksOf cfg d1 secs = blocksOf cfg d2 secs := by
  induction secs with
  | nil => rfl
  | cons s t ih =>
    unfold blocksOf
    rw [sectionBlock_agree cfg d1 d2 s (h s (List.mem_cons_self _ _)),
      ih (fun s1 h1 => h s1 (List.mem_cons_of_mem _ h1))]

theorem presence_mset (acc : Matrix) (i1 m1 : String) (v1 : ℕ) (i : String)
    (h : ∃ m v, mlookup2 acc i m = some v) :
    ∃ m v, mlookup2 (mset acc i1 m1 v1) i m = some v := by
  obtain ⟨m, v, hmv⟩ := h
  by_cases hc : i = i1 ∧ m = m1
  · exact ⟨m, v1, by rw [mlookup2_mset, if_pos hc]⟩
  · exact ⟨m, v, by rw [mlookup2_mset, if_neg hc]; exact hmv⟩

theorem presence_foldl_groups (gs : List (String × List Obs)) (i : String) :
    ∀ acc : Matrix,
    ((∃ vs, lookupA gs i = some vs ∧ vs ≠ []) ∨ (∃ m v, mlookup2 acc i m = some v)) →
    ∃ m v, mlookup2 (gs.foldl
        (fun a kv =>
          match minBy2 kv.2 with
          | some w => mset a kv.1 w.machine w.cycles
          | none => a) acc) i m = some v := by
  induction gs with
  | nil =>
    intro acc h
    rcases h with ⟨vs, hl, _⟩ | h2
    · cases hl
    · exact h2
  | cons kv rest ih =>
    intro acc h
    obtain ⟨k, vs⟩ := kv
    rw [List.foldl_cons]
    rcases h with ⟨vs0, hl, hne0⟩ | h2
    · rw [lookupA_cons] at hl
      by_cases hk : k = i
      · rw [if_pos hk] at hl
        have hvs : vs = vs0 := Option.some.inj hl
        obtain ⟨w, hw⟩ := minBy2_of_ne_nil vs (by rw [hvs]; exact hne0)
        apply ih
        right
        refine ⟨w.machine, w.cycles, ?_⟩
        have : (match minBy2 vs with
            | some w => mset acc k w.machine w.cycles
            | none => acc) = mset acc k w.machine w.cycles := by rw [hw]
        rw [this, mlookup2_mset, if_pos ⟨hk.symm, rfl⟩]
      · rw [if_neg hk] at hl
        apply ih
        left
        exact ⟨vs0, hl, hne0⟩
    · apply ih
      right
      cases hmb : minBy2 vs with
      | none => exact h2
      | some w => exact presence_mset acc k w.machine w.cycles i h2

theorem presence_hostStep (acc : Matrix) (content : String) (i : String)
    (h : (∃ o ∈ fileObs content, o.impl = i) ∨ (∃ m v, mlookup2 acc i m = some v)) :
    ∃ m v, mlookup2 (hostStep acc content) i m = some v := by
  unfold hostStep
  apply presence_foldl_groups
  rcases h with ⟨o, ho, hoi⟩ | h2
  · left
    have hmem : o ∈ (fileObs content).filter (fun o1 => o1.impl == i) :=
      List.mem_filter.mpr ⟨ho, by rw [hoi]; exact beq_self_eq_true i⟩
    refine ⟨(fileObs content).filter (fun o1 => o1.impl == i), ?_, ?_⟩
    · rw [lookupA_groupByImpl]
      cases hfil : (fileObs content).filter (fun o1 => o1.impl == i) with
      | nil => rw [hfil] at hmem; cases hmem
      | cons x t => exact optApp_none_cons x t
    · intro hc
      rw [hc] at hmem
      cases hmem
  · right
    exact h2

theorem presence_dataOf_go (rel : List (String × String)) (i : String) :
    ∀ acc : Matrix,
    ((∃ o ∈ rel.flatMap (fun e => fileObs e.2), o.impl = i) ∨
      (∃ m v, mlookup2 acc i m = some v)) →
    ∃ m v, mlookup2 (rel.foldl (fun a e => hostStep a e.2) acc) i m = some v := by
  induction rel with
  | nil =>
    intro acc h
    rcases h with ⟨o, ho, _⟩ | h2
    · cases ho
    · exact h2
  | cons e rest ih =>
    intro acc h
    rw [List.foldl_cons]
    rcases h with ⟨o, ho, hoi⟩ | h2
    · rw [List.flatMap_cons] at ho
      rcases List.mem_append.mp ho with ho1 | ho1
      · exact ih _ (Or.inr (presence_hostStep acc e.2 i (Or.inl ⟨o, ho1, hoi⟩)))
      · exact ih _ (Or.inl ⟨o, ho1, hoi⟩)
    · exact ih _ (Or.inr (presence_hostStep acc e.2 i (Or.inr h2)))

/-- C10: the rendered report reads the Aggregate Matrix only at the
implementation identifiers listed in the Section configuration — two matrices
agreeing on every configured identifier render identically, so records of
unconfigured implementations never influence the output; and every parsed
implementation identifier (configured or not) is stored in the matrix. -/
theorem c10_unconfigured_never_rendered (cfg : Cfg) (d1 d2 : Matrix)
    (hagree : ∀ sec ∈ cfg.implOrder, ∀ ii ∈ sec, mlookup d1 ii = mlookup d2 ii) :
    genBarTableWith cfg d1 = genBarTableWith cfg d2 ∧
    ∀ input i, (∃ o ∈ allObsOf input, o.impl = i) →
      ∃ m v, mlookup2 (dataOf input) i m = some v := by
  constructor
  · unfold genBarTableWith
    rw [blocksOf_agree cfg d1 d2 cfg.implOrder hagree]
  · intro input i hobs
    unfold dataOf
    exact presence_dataOf_go _ i [] (Or.inl hobs)

def c10base : List (String × String) :=
  [("kivsa", "1 kivsa a 2 p t try c ok 50 1 1 crypto_scalarmult/curve25519/sandy2x g_o")]

def c10extra : List (String × String) :=
  c10base ++
    [("nakhash", "1 nakhash a 2 p t try c ok 70 1 1 not/in/any-section g_o")]

theorem c10_unconfigured_never_rendered_witness :
    (∀ sec ∈ cfgA.implOrder, ∀ ii ∈ sec,
      mlookup (dataOf c10base) ii = mlookup (dataOf c10extra) ii) ∧
    (genBarTableWith cfgA (dataOf c10base) = genBarTableWith cfgA (dataOf c10extra) ∧
      ∀ input i, (∃ o ∈ allObsOf input, o.impl = i) →
        ∃ m v, mlookup2 (dataOf input) i m = some v) :=
  ⟨by decide,
   c10_unconfigured_never_rendered cfgA (dataOf c10base) (dataOf c10extra) (by decide)⟩

/-! ### Emphasis and ratio annotation (claim C6) -/

theorem lookupA_map_self {α : Type} (f : String → α) (ms : List String) (machine : String)
    (hm : machine ∈ ms) :
    lookupA (ms.map (fun m => (m, f m))) machine = some (f machine) := by
  induction ms with
  | nil => cases hm
  | cons m t ih =>
    rw [List.map_cons, lookupA_cons]
    by_cases he : m = machine
    · rw [if_pos he, he]
    · rw [if_neg he]
      exact ih (by
        rcases List.mem_cons.mp hm with h1 | h1
        · exact absurd h1.symm he
        · exact h1)

theorem minList_eq_none (l : List ℕ) (h : minList l = none) : l = [] := by
  cases l with
  | nil => rfl
  | cons a t =>
    cases hml : minList t with
    | none => rw [minList_cons_none a hml] at h; cases h
    | some m => rw [minList_cons_some a hml] at h; cases h

theorem jsMinList_vals (l : List ℕ) (mn : ℕ) (h : minList l = some mn) :
    jsMinList (l.map (fun (n : ℕ) => JSNum.val (n : ℝ))) = JSNum.val (mn : ℝ) := by
  induction l generalizing mn with
  | nil => cases h
  | cons a t ih =>
    cases hml : minList t with
    | none =>
      have ht : t = [] := minList_eq_none t hml
      rw [minList_cons_none a hml] at h
      rw [ht, ← Option.some.inj h]
      rfl
    | some mm =>
      rw [minList_cons_some a hml] at h
      rw [List.map_cons]
      show jsMin (JSNum.val (a : ℝ))
        (jsMinList (t.map (fun (n : ℕ) => JSNum.val (n : ℝ)))) = JSNum.val (mn : ℝ)
      rw [ih mm hml]
      show JSNum.val (min (a : ℝ) (mm : ℝ)) = JSNum.val (mn : ℝ)
      rw [← Nat.cast_min, ← Option.some.inj h]

/-- The per-row emphasis flag of one host column: exactly the Boolean
`printCycles` branches on when `rowLine` renders that row's cell for that
machine (`c == small` with `c` the row's value and `small` the column's
section minimum). -/
noncomputable def emphFlags (cfg : Cfg) (d : List RowD) (machine : String) : List Bool :=
  d.map (fun rrow => jsEqB (jsOfOpt (lookupA rrow.byMachine machine))
    ((lookupA (smallestImplByMachine cfg d) machine).getD JSNum.nan))

/-- The summary value of a fully-covered row as a real number:
`Math.pow(product of the per-host values, 1/N)`. -/
noncomputable def meanVal (cfg : Cfg) (rrow : RowD) : ℝ :=
  ((cfg.machineOrder.map
    (fun m => (((lookupA rrow.byMachine m).getD 0 : ℕ) : ℝ))).prod) ^
    ((cfg.machineOrder.length : ℝ))⁻¹

theorem meanOfRow_val (cfg : Cfg) (rrow : RowD)
    (hcov : ∀ m ∈ cfg.machineOrder, (lookupA rrow.byMachine m).isSome) :
    meanOfRow cfg rrow = JSNum.val (meanVal cfg rrow) := by
  unfold meanOfRow meanVal
  rw [foldl_jsMul_vals rrow.byMachine cfg.machineOrder hcov 1, one_mul]
  rfl

theorem meanVal_pos (cfg : Cfg) (rrow : RowD)
    (hpos : ∀ m ∈ cfg.machineOrder, 0 < (lookupA rrow.byMachine m).getD 0) :
    0 < meanVal cfg rrow := by
  apply Real.rpow_pos_of_pos
  apply List.prod_pos
  intro a ha
  obtain ⟨m, hm, he⟩ := List.mem_map.mp ha
  rw [← he]
  exact Nat.cast_pos.mpr (hpos m hm)

/-- `Math.min` over a nonempty spread of real values is the true minimum:
it is one of the values and a lower bound for all of them. -/
theorem jsMinList_valsR (l : List ℝ) (hne : l ≠ []) :
    ∃ sm : ℝ, jsMinList (l.map JSNum.val) = JSNum.val sm ∧ sm ∈ l ∧ ∀ x ∈ l, sm ≤ x := by
  induction l with
  | nil => exact absurd rfl hne
  | cons a t ih =>
    cases t with
    | nil =>
      refine ⟨a, rfl, List.mem_cons_self _ _, ?_⟩
      intro x hx
      rcases List.mem_cons.mp hx with h1 | h1
      · rw [h1]
      · cases h1
    | cons b t1 =>
      obtain ⟨sm, hsm, hmem, hlb⟩ := ih (by intro hc; cases hc)
      refine ⟨min a sm, ?_, ?_, ?_⟩
      · show jsMin (JSNum.val a) (jsMinList ((b :: t1).map JSNum.val)) =
          JSNum.val (min a sm)
        rw [hsm]
        rfl
      · rcases le_total a sm with h | h
        · rw [min_eq_left h]
          exact List.mem_cons_self _ _
        · rw [min_eq_right h]
          exact List.mem_cons_of_mem _ hmem
      · intro x hx
        rcases List.mem_cons.mp hx with h1 | h1
        · rw [h1]
          exact min_le_left _ _
        · exact le_trans (min_le_right _ _) (hlb x h1)

/-- C6 (amended): the `small` value `printCycles` compares against is the true
minimum of the Section's values in that host column; a rendered value is
emphasised exactly when it EQUALS that minimum (so under a tie every minimal
value is emphasised, not exactly one); the ratio annotation is the value
divided by that minimum; and likewise for the summary column: with full data
coverage, `smallestMean` is the true minimum of the Section's geometric-mean
values (attained by some row and a lower bound for every row's mean), a
summary cell — fed `meanByImplementation[iname]` against `smallestMean` — is
emphasised exactly when the row's mean equals that minimum, and its ratio
annotation is the mean divided by that minimum. `toFixed(2)` with an `x`
suffix renders 1100 against minimum 1000 as `1k {\tiny (1.10x)}` (the claim's
"1.10x"). -/
theorem c6_emphasis_and_ratio (cfg : Cfg) (data : Matrix) (impls : List String)
    (d : List RowD) (machine : String) (mn : ℕ)
    (_hd : sectionD cfg data impls = Except.ok d)
    (hm : machine ∈ cfg.machineOrder)
    (hcov : ∀ rrow ∈ d, (lookupA rrow.byMachine machine).isSome)
    (hmin : minList (d.map (fun rrow => (lookupA rrow.byMachine machine).getD 0)) = some mn)
    (hpos : 0 < mn)
    (hne : d ≠ [])
    (hnd : (d.map RowD.iname).Nodup)
    (hcovAll : ∀ rrow ∈ d, ∀ m ∈ cfg.machineOrder, 0 < (lookupA rrow.byMachine m).getD 0) :
    lookupA (smallestImplByMachine cfg d) machine = some (JSNum.val (mn : ℝ)) ∧
    (∀ rrow ∈ d, ∀ v : ℕ, lookupA rrow.byMachine machine = some v →
      (jsEqB (JSNum.val (v : ℝ)) (JSNum.val (mn : ℝ)) = true ↔ v = mn) ∧
      jsDiv (JSNum.val (v : ℝ)) (JSNum.val (mn : ℝ)) = JSNum.val ((v : ℝ) / (mn : ℝ))) ∧
    (∃ sm : ℝ, smallestMean cfg d = JSNum.val sm ∧ 0 < sm ∧
      (∃ rrow ∈ d, meanOfRow cfg rrow = JSNum.val sm) ∧
      (∀ rrow ∈ d,
        lookupA (meanByImplementation cfg d) rrow.iname =
          some (JSNum.val (meanVal cfg rrow)) ∧
        sm ≤ meanVal cfg rrow ∧
        (jsEqB (JSNum.val (meanVal cfg rrow)) (JSNum.val sm) = true ↔
          meanVal cfg rrow = sm) ∧
        jsDiv (JSNum.val (meanVal cfg rrow)) (JSNum.val sm) =
          JSNum.val (meanVal cfg rrow / sm))) ∧
    printCycles (JSNum.val 1100) (JSNum.val 1000) =
      padStartS "1k \x7b\\tiny (1.10x)\x7d" PAD_CYC := by
  refine ⟨?_, ?_, ?_, ?_⟩
  · unfold smallestImplByMachine
    rw [lookupA_map_self _ cfg.machineOrder machine hm]
    have hvals : d.map (fun rrow => jsOfOpt (lookupA rrow.byMachine machine)) =
        (d.map (fun rrow => (lookupA rrow.byMachine machine).getD 0)).map
          (fun (n : ℕ) => JSNum.val (n : ℝ)) := by
      rw [List.map_map]
      apply List.map_congr_left
      intro rrow hrrow
      have hso := hcov rrow hrrow
      simp only [Function.comp_apply]
      cases hl : lookupA rrow.byMachine machine with
      | none => rw [hl] at hso; cases hso
      | some v => rfl
    rw [hvals, jsMinList_vals _ mn hmin]
  · intro rrow hrrow v hv
    constructor
    · show decide ((v : ℝ) = (mn : ℝ)) = true ↔ v = mn
      rw [decide_eq_true_eq, Nat.cast_inj]
    · show (if (mn : ℝ) = 0 then (if (v : ℝ) = 0 then JSNum.nan else JSNum.inf)
        else JSNum.val ((v : ℝ) / (mn : ℝ))) = JSNum.val ((v : ℝ) / (mn : ℝ))
      rw [if_neg]
      exact Nat.cast_ne_zero.mpr (Nat.pos_iff_ne_zero.mp hpos)
  · have hcovS : ∀ rrow ∈ d, ∀ m ∈ cfg.machineOrder,
        (lookupA rrow.byMachine m).isSome := by
      intro rrow hr m hmm
      have h1 := hcovAll rrow hr m hmm
      cases hl : lookupA rrow.byMachine m with
      | none =>
        rw [hl] at h1
        exact absurd h1 (Nat.lt_irrefl 0)
      | some v => rfl
    have hmv : ∀ rrow ∈ d, meanOfRow cfg rrow = JSNum.val (meanVal cfg rrow) :=
      fun rrow hr => meanOfRow_val cfg rrow (hcovS rrow hr)
    have hmp : ∀ rrow ∈ d, 0 < meanVal cfg rrow :=
      fun rrow hr => meanVal_pos cfg rrow (hcovAll rrow hr)
    have hsndm : (meanByImplementation cfg d).map Prod.snd = d.map (meanOfRow cfg) := by
      show (d.map (fun rrow => (rrow.iname, meanOfRow cfg rrow))).map Prod.snd =
        d.map (meanOfRow cfg)
      rw [List.map_map]
      rfl
    have hlist : d.map (meanOfRow cfg) = (d.map (meanVal cfg)).map JSNum.val := by
      rw [List.map_map]
      apply List.map_congr_left
      intro rrow hr
      exact hmv rrow hr
    have hmapne : d.map (meanVal cfg) ≠ [] :=
      fun hc => hne (List.map_eq_nil_iff.mp hc)
    obtain ⟨sm, hsmeq, hsmem, hslb⟩ := jsMinList_valsR (d.map (meanVal cfg)) hmapne
    obtain ⟨rrow0, hr0, hval0⟩ := List.mem_map.mp hsmem
    have hsp : 0 < sm := by
      rw [← hval0]
      exact hmp rrow0 hr0
    refine ⟨sm, ?_, hsp, ⟨rrow0, hr0, ?_⟩, ?_⟩
    · show jsMinList ((meanByImplementation cfg d).map Prod.snd) = JSNum.val sm
      rw [hsndm, hlist]
      exact hsmeq
    · rw [hmv rrow0 hr0, hval0]
    · intro rrow hr
      have hlk : lookupA (meanByImplementation cfg d) rrow.iname =
          some (JSNum.val (meanVal cfg rrow)) := by
        show lookupA (d.map (fun r => (r.iname, meanOfRow cfg r))) rrow.iname = _
        rw [lookupA_map_pair (meanOfRow cfg) d rrow hr hnd, hmv rrow hr]
      refine ⟨hlk, hslb _ (List.mem_map_of_mem _ hr), ?_, ?_⟩
      · show decide (meanVal cfg rrow = sm) = true ↔ meanVal cfg rrow = sm
        rw [decide_eq_true_eq]
      · show (if sm = 0 then (if meanVal cfg rrow = 0 then JSNum.nan else JSNum.inf)
          else JSNum.val (meanVal cfg rrow / sm)) = JSNum.val (meanVal cfg rrow / sm)
        rw [if_neg]
        exact ne_of_gt hsp
  · have heq : jsEqB (JSNum.val 1100) (JSNum.val 1000) = false := by
      show decide ((1100 : ℝ) = 1000) = false
      rw [decide_eq_false_iff_not]
      norm_num
    have hdiv : jsDiv (JSNum.val 1100) (JSNum.val 1000) = JSNum.val ((1100 : ℝ) / 1000) := by
      show (if (1000 : ℝ) = 0 then (if (1100 : ℝ) = 0 then JSNum.nan else JSNum.inf)
        else JSNum.val ((1100 : ℝ) / 1000)) = JSNum.val ((1100 : ℝ) / 1000)
      rw [if_neg]
      norm_num
    have hfl2 : (⌊(1100 : ℝ) / 1000 * 100 + 1 / 2⌋ : ℤ) = 110 := by
      apply Int.floor_eq_iff.mpr
      norm_num
    have hfix2 : jsToFixed2 (JSNum.val ((1100 : ℝ) / 1000)) = "1.10" := by
      show toString ((⌊(1100 : ℝ) / 1000 * 100 + 1 / 2⌋ : ℤ) / 100) ++ "." ++
        pad2 ((⌊(1100 : ℝ) / 1000 * 100 + 1 / 2⌋ : ℤ) % 100) = "1.10"
      rw [hfl2]
      rfl
    have hfl0 : (⌊(1100 : ℝ) / 1000 + 1 / 2⌋ : ℤ) = 1 := by
      apply Int.floor_eq_iff.mpr
      norm_num
    have hfix0 : jsToFixed0 (JSNum.val ((1100 : ℝ) / 1000)) = "1" := by
      show toString (⌊(1100 : ℝ) / 1000 + 1 / 2⌋ : ℤ) = "1"
      rw [hfl0]
      rfl
    unfold printCycles
    rw [heq, hdiv, hfix2, hfix0]
    rfl

def cfg6 : Cfg :=
  ⟨[["a/curve25519/p", "a/curve25519/q"]],
   [("a/curve25519/p", ⟨"P", "c"⟩), ("a/curve25519/q", ⟨"Q", "c"⟩)],
   ["kivsa"], [("kivsa", "K")], [("curve25519", "Curve25519")], languageMapA⟩

def data6 : Matrix := [("a/curve25519/p", [("kivsa", 100)]), ("a/curve25519/q", [("kivsa", 100)])]

def sec6 : List String := ["a/curve25519/p", "a/curve25519/q"]

def d6 : List RowD :=
  [⟨"P", "a/curve25519/p", "C", [("kivsa", 100)]⟩,
   ⟨"Q", "a/curve25519/q", "C", [("kivsa", 100)]⟩]

/-- C6: it is NOT true that exactly one rendered value per Section and host
column is emphasised as smallest: when two implementations tie at the column
minimum, `c == small` holds for both rows and both cells are set in bold. -/
theorem c6_counterexample :
    sectionD cfg6 data6 sec6 = Except.ok d6 ∧
    emphFlags cfg6 d6 "kivsa" = [true, true] ∧
    (emphFlags cfg6 d6 "kivsa").count true = 2 ∧ (2 : ℕ) ≠ 1 := by
  have hsmall : lookupA (smallestImplByMachine cfg6 d6) "kivsa" =
      some (JSNum.val ((100 : ℕ) : ℝ)) := by
    unfold smallestImplByMachine
    rw [lookupA_map_self _ cfg6.machineOrder "kivsa" (by decide)]
    have hvals : d6.map (fun rrow => jsOfOpt (lookupA rrow.byMachine "kivsa")) =
        ([100, 100] : List ℕ).map (fun (n : ℕ) => JSNum.val (n : ℝ)) := rfl
    rw [hvals, jsMinList_vals [100, 100] 100 (by decide)]
  have hflag : jsEqB (jsOfOpt (lookupA (⟨"P", "a/curve25519/p", "C",
      [("kivsa", 100)]⟩ : RowD).byMachine "kivsa"))
      ((lookupA (smallestImplByMachine cfg6 d6) "kivsa").getD JSNum.nan) = true := by
    rw [hsmall]
    show decide (((100 : ℕ) : ℝ) = ((100 : ℕ) : ℝ)) = true
    rw [decide_eq_true_eq]
  have hlist : emphFlags cfg6 d6 "kivsa" = [true, true] := by
    show [jsEqB (jsOfOpt (lookupA (⟨"P", "a/curve25519/p", "C",
        [("kivsa", 100)]⟩ : RowD).byMachine "kivsa"))
        ((lookupA (smallestImplByMachine cfg6 d6) "kivsa").getD JSNum.nan),
      jsEqB (jsOfOpt (lookupA (⟨"Q", "a/curve25519/q", "C",
        [("kivsa", 100)]⟩ : RowD).byMachine "kivsa"))
        ((lookupA (smallestImplByMachine cfg6 d6) "kivsa").getD JSNum.nan)] = [true, true]
    rw [hflag]
  exact ⟨by decide, hlist, by rw [hlist]; rfl, by decide⟩

theorem c6_emphasis_and_ratio_witness :
    (sectionD cfg6 data6 sec6 = Except.ok d6 ∧ "kivsa" ∈ cfg6.machineOrder ∧
      (∀ rrow ∈ d6, (lookupA rrow.byMachine "kivsa").isSome) ∧
      minList (d6.map (fun rrow => (lookupA rrow.byMachine "kivsa").getD 0)) = some 100 ∧
      0 < 100 ∧ d6 ≠ [] ∧ (d6.map RowD.iname).Nodup ∧
      (∀ rrow ∈ d6, ∀ m ∈ cfg6.machineOrder, 0 < (lookupA rrow.byMachine m).getD 0)) ∧
    (lookupA (smallestImplByMachine cfg6 d6) "kivsa" = some (JSNum.val ((100 : ℕ) : ℝ)) ∧
      (∀ rrow ∈ d6, ∀ v : ℕ, lookupA rrow.byMachine "kivsa" = some v →
        (jsEqB (JSNum.val (v : ℝ)) (JSNum.val ((100 : ℕ) : ℝ)) = true ↔ v = 100) ∧
        jsDiv (JSNum.val (v : ℝ)) (JSNum.val ((100 : ℕ) : ℝ)) =
          JSNum.val ((v : ℝ) / ((100 : ℕ) : ℝ))) ∧
      (∃ sm : ℝ, smallestMean cfg6 d6 = JSNum.val sm ∧ 0 < sm ∧
        (∃ rrow ∈ d6, meanOfRow cfg6 rrow = JSNum.val sm) ∧
        (∀ rrow ∈ d6,
          lookupA (meanByImplementation cfg6 d6) rrow.iname =
            some (JSNum.val (meanVal cfg6 rrow)) ∧
          sm ≤ meanVal cfg6 rrow ∧
          (jsEqB (JSNum.val (meanVal cfg6 rrow)) (JSNum.val sm) = true ↔
            meanVal cfg6 rrow = sm) ∧
          jsDiv (JSNum.val (meanVal cfg6 rrow)) (JSNum.val sm) =
            JSNum.val (meanVal cfg6 rrow / sm))) ∧
      printCycles (JSNum.val 1100) (JSNum.val 1000) =
        padStartS "1k \x7b\\tiny (1.10x)\x7d" PAD_CYC) :=
  ⟨⟨by decide, by decide, by decide, by decide, by decide, by decide, by decide, by decide⟩,
   c6_emphasis_and_ratio cfg6 data6 sec6 d6 "kivsa" 100 (by decide) (by decide)
     (by decide) (by decide) (by decide) (by decide) (by decide) (by decide)⟩

end Supercop
